import Mathlib

/-
Verification of a distributed LSM key-value store (Go sources) against its
natural-language specification.

Shallow embedding conventions:
  * Go byte slices are `List Nat` (each element one byte value).
  * Go machine integers are `Nat` with explicit `% 2^32` / `% 2^64` where Go
    arithmetic wraps; comparisons of int64 fields that are never computed with
    are modelled directly on `Nat`/`Int`.
  * Stateful Go methods become pure functions from state to state.
  * Maps become association lists; Go map lookup of a missing key yields the
    zero value, modelled with `getD`-style defaults where the source relies
    on that behaviour.
-/

set_option maxHeartbeats 1000000
set_option maxRecDepth 200000

/-! ## Byte-sequence primitives -/

/-- Lexicographic strict order on byte sequences, the order induced by Go
bytes.Compare (and by Go string comparison on the corresponding strings). -/
def bytesLt : List Nat → List Nat → Bool
  | [], [] => false
  | [], _ :: _ => true
  | _ :: _, [] => false
  | a :: as, b :: bs =>
    if a < b then true
    else if b < a then false
    else bytesLt as bs

/-- The tombstone sentinel: the bytes of the Go literal "__TOMBSTONE__". -/
def tombstoneBytes : List Nat :=
  [95, 95, 84, 79, 77, 66, 83, 84, 79, 78, 69, 95, 95]

/-! ## FNV hashing (hash/fnv, 32-bit variants used by the Bloom filter) -/

/-- FNV-1 32-bit: per byte, multiply by the FNV prime then xor the byte
(all arithmetic modulo 2^32), from offset basis 2166136261. -/
def hashFNV32 (data : List Nat) : Nat :=
  data.foldl (fun h b => (h * 16777619 % 4294967296) ^^^ b) 2166136261

/-- FNV-1a 32-bit: per byte, xor the byte then multiply by the FNV prime
(all arithmetic modulo 2^32), from offset basis 2166136261. -/
def hashFNV32a (data : List Nat) : Nat :=
  data.foldl (fun h b => (h ^^^ b) * 16777619 % 4294967296) 2166136261

/-! ## Bloom filter (storage/bloom_filter.go) -/

/-- BloomFilter state: byte array of bits, size in bits, hash count. -/
structure BloomFilter where
  bits : List Nat
  size : Nat
  numHashes : Nat
  deriving Repr, DecidableEq

namespace BloomFilter

/-- getHashes: double hashing h(i) = hash1 + i*hash2 over uint32 arithmetic
(wrapping modulo 2^32), for i < numHashes. -/
def getHashes (bf : BloomFilter) (key : List Nat) : List Nat :=
  let h1 := hashFNV32 key
  let h2 := hashFNV32a key
  (List.range bf.numHashes).map (fun i => (h1 + i * h2) % 4294967296)

/-- Add: set bit hash % size for every double hash of the key
(bits[bitPos/8] |= 1 << (bitPos%8)). -/
def Add (bf : BloomFilter) (key : List Nat) : BloomFilter :=
  { bf with
    bits :=
      (bf.getHashes key).foldl
        (fun bits h =>
          let bitPos := h % bf.size
          bits.set (bitPos / 8) (bits.getD (bitPos / 8) 0 ||| (1 <<< (bitPos % 8))))
        bf.bits }

/-- MayContain: true iff every double-hash bit of the key is set
(false as soon as bits[bitPos/8] & (1 << (bitPos%8)) == 0). -/
def MayContain (bf : BloomFilter) (key : List Nat) : Bool :=
  (bf.getHashes key).all
    (fun h =>
      let bitPos := h % bf.size
      bf.bits.getD (bitPos / 8) 0 &&& (1 <<< (bitPos % 8)) != 0)

end BloomFilter

/-- NewBloomFilter(10000, 0.01), the sizing used by the SSTable writer.
The Go source computes size = ceil(-n ln p / (ln 2)^2) and
numHashes = ceil(size/n * ln 2) in float64; at the writer's fixed arguments
n = 10000, p = 0.01 those evaluate to 95851 bits and 7 hashes, and the byte
array length is (95851+7)/8 = 11982. -/
def newWriterBloomFilter : BloomFilter :=
  { bits := List.replicate 11982 0, size := 95851, numHashes := 7 }

/-! ## MemTable (skip list, observed through its sorted-map behaviour) -/

/-- MemTable: the skip list of storage (bloom_filter_test.go part), observed
as its sorted association list of key/value entries (the order maintained by
skip-list insertion under bytes.Compare). -/
structure MemTable where
  entries : List (List Nat × List Nat)
  deriving Repr, DecidableEq

namespace MemTable

/-- The fresh MemTable produced by NewMemTable. -/
def empty : MemTable := ⟨[]⟩

/-- Sorted-position insert or in-place update, the effect of skip-list Put. -/
def putEntries (k v : List Nat) : List (List Nat × List Nat) → List (List Nat × List Nat)
  | [] => [(k, v)]
  | (k0, v0) :: rest =>
    if bytesLt k k0 then (k, v) :: (k0, v0) :: rest
    else if k = k0 then (k, v) :: rest
    else (k0, v0) :: putEntries k v rest

/-- Put inserts or updates a key-value pair. -/
def Put (m : MemTable) (k v : List Nat) : MemTable :=
  ⟨putEntries k v m.entries⟩

/-- Get returns none when the key is absent or when the stored value equals
the tombstone sentinel (the skip-list Get returns (nil, false) in both). -/
def Get (m : MemTable) (k : List Nat) : Option (List Nat) :=
  match m.entries.find? (fun e => e.1 = k) with
  | none => none
  | some e => if e.2 = tombstoneBytes then none else some e.2

/-- Delete marks a key as deleted by storing the tombstone sentinel. -/
def Delete (m : MemTable) (k : List Nat) : MemTable :=
  m.Put k tombstoneBytes

/-- Size: the accumulated byte estimate. The Go code maintains it
incrementally (+key+value+8 on insert, -old+new on update), which keeps it
equal to this sum over the current entries. -/
def Size (m : MemTable) : Nat :=
  m.entries.foldl (fun acc e => acc + e.1.length + e.2.length + 8) 0

/-- Iterator: all entries in ascending key order (the list itself). -/
def Iterator (m : MemTable) : List (List Nat × List Nat) :=
  m.entries

end MemTable

/-! ## SSTable (storage/sstable.go) -/

/-- SSTable as loaded by OpenSSTable: the index is the written keys in write
order with their record offsets, and reading at index entry i returns the
i-th written value; we carry the written (key, value) records directly and
the deserialized Bloom filter. -/
structure SSTable where
  entries : List (List Nat × List Nat)
  bloomFilter : Option BloomFilter
  deriving Repr, DecidableEq

namespace SSTable

/-- The index position sort.Search computes inside Get: the smallest i with
index[i].Key >= key in byte order (the list length when no such i exists). -/
def searchIdx (s : SSTable) (key : List Nat) : Nat :=
  s.entries.findIdx (fun e => !bytesLt e.1 key)

/-- Whether binary search in the index lands on an entry equal to the key
(the `idx < len && index[idx].Key == key` test of Get). -/
def indexFound (s : SSTable) (key : List Nat) : Bool :=
  s.searchIdx key < s.entries.length &&
    ((s.entries.getD (s.searchIdx key) ([], [])).1 == key)

/-- Get: Bloom-skip when the filter reports definitely absent, otherwise
binary search the index and read the record at the found offset. -/
def Get (s : SSTable) (key : List Nat) : Option (List Nat) :=
  match s.bloomFilter with
  | some bf =>
    if !bf.MayContain key then none
    else if s.indexFound key then some (s.entries.getD (s.searchIdx key) ([], [])).2
    else none
  | none =>
    if s.indexFound key then some (s.entries.getD (s.searchIdx key) ([], [])).2
    else none

end SSTable

/-- The SSTable produced by feeding the writer the given records in order and
finalizing: every written key is added to the lazily-created Bloom filter
(NewBloomFilter(10000, 0.01) on the first write; a writer that never wrote
stores no filter). -/
def writeSSTable (entries : List (List Nat × List Nat)) : SSTable :=
  { entries := entries
    bloomFilter :=
      match entries with
      | [] => none
      | _ => some (entries.foldl (fun bf e => bf.Add e.1) newWriterBloomFilter) }

/-! ## WAL entries and the LSM engine (storage/lsm_store.go) -/

/-- Operation byte of a WAL record. -/
def OpPut : Nat := 1

/-- Operation byte of a WAL delete record. -/
def OpDelete : Nat := 2

/-- WAL Entry: timestamp, op, key bytes, value bytes. -/
structure Entry where
  Timestamp : Nat
  Op : Nat
  Key : List Nat
  Value : List Nat
  deriving Repr, DecidableEq

/-- MemTableSizeThreshold: 64 MiB. -/
def memTableSizeThreshold : Nat := 64 * 1024 * 1024

/-- LSMStore state: active memtable, optional immutable memtable, SSTables
newest first, WAL contents (as the sequence of appended records), next table
id. -/
structure LSMStore where
  memTable : MemTable
  immutableTable : Option MemTable
  sstables : List SSTable
  wal : List Entry
  nextTableID : Nat
  deriving Repr, DecidableEq

namespace LSMStore

/-- The store NewLSMStore builds in an empty data directory. -/
def new : LSMStore :=
  { memTable := MemTable.empty, immutableTable := none, sstables := []
    wal := [], nextTableID := 0 }

/-- maybeFlush: re-checks the size threshold, and if still exceeded moves the
active memtable to immutable, installs a fresh one, flushes the immutable
table to a new SSTable at the head of the list, clears the immutable
reference and resets the WAL (final state of the sequential execution). -/
def maybeFlush (s : LSMStore) : LSMStore :=
  if s.memTable.Size < memTableSizeThreshold then s
  else
    { memTable := MemTable.empty
      immutableTable := none
      sstables := writeSSTable s.memTable.Iterator :: s.sstables
      wal := []
      nextTableID := s.nextTableID + 1 }

/-- Put: append a put record to the WAL, insert into the memtable, flush if
the memtable reached the size threshold. -/
def Put (s : LSMStore) (key value : List Nat) (ts : Nat) : LSMStore :=
  let s1 := { s with wal := s.wal ++ [⟨ts, OpPut, key, value⟩],
                     memTable := s.memTable.Put key value }
  if memTableSizeThreshold ≤ s1.memTable.Size then s1.maybeFlush else s1

/-- Delete: append a delete record to the WAL, insert the tombstone into the
memtable, flush if the memtable reached the size threshold. -/
def Delete (s : LSMStore) (key : List Nat) (ts : Nat) : LSMStore :=
  let s1 := { s with wal := s.wal ++ [⟨ts, OpDelete, key, []⟩],
                     memTable := s.memTable.Delete key }
  if memTableSizeThreshold ≤ s1.memTable.Size then s1.maybeFlush else s1

/-- Scan the SSTables newest first; the first found record returns, a found
tombstone value returns not-found. -/
def scanSSTables (key : List Nat) : List SSTable → Option (List Nat)
  | [] => none
  | t :: ts =>
    match t.Get key with
    | some v => if v = tombstoneBytes then none else some v
    | none => scanSSTables key ts

/-- Get: active memtable, then immutable memtable, then SSTables newest
first; memtable hits return directly (the memtable reports tombstoned keys
as absent), SSTable hits are checked against the tombstone sentinel. -/
def Get (s : LSMStore) (key : List Nat) : Option (List Nat) :=
  match s.memTable.Get key with
  | some v => some v
  | none =>
    match s.immutableTable with
    | some imm =>
      match imm.Get key with
      | some v => some v
      | none => scanSSTables key s.sstables
    | none => scanSSTables key s.sstables

end LSMStore

/-! ## Bloom soundness: an added key is never reported definitely absent -/

/-- Whether bit bitPos of the filter byte array is set, the test MayContain
performs per hash. -/
def bitSet (bits : List Nat) (bitPos : Nat) : Bool :=
  bits.getD (bitPos / 8) 0 &&& (1 <<< (bitPos % 8)) != 0

theorem bitSet_eq_testBit (bits : List Nat) (p : Nat) :
    bitSet bits p = (bits.getD (p / 8) 0).testBit (p % 8) := by
  unfold bitSet
  simp only [Nat.shiftLeft_eq, one_mul, Nat.and_two_pow]
  cases h : (bits.getD (p / 8) 0).testBit (p % 8) <;> simp [h]

theorem mayContain_eq_all_bitSet (bf : BloomFilter) (key : List Nat) :
    bf.MayContain key = (bf.getHashes key).all (fun h => bitSet bf.bits (h % bf.size)) :=
  rfl

/-- One Add step of the hash fold, acting on the byte array. -/
def addStep (size : Nat) (bits : List Nat) (h : Nat) : List Nat :=
  bits.set (h % size / 8) (bits.getD (h % size / 8) 0 ||| (1 <<< (h % size % 8)))

theorem add_bits_eq (bf : BloomFilter) (key : List Nat) :
    (bf.Add key).bits = (bf.getHashes key).foldl (addStep bf.size) bf.bits :=
  rfl

theorem addStep_length (size : Nat) (bits : List Nat) (h : Nat) :
    (addStep size bits h).length = bits.length := by
  simp [addStep]

theorem bitSet_addStep_of_bitSet (size : Nat) (bits : List Nat) (h p : Nat)
    (hp : bitSet bits p = true) : bitSet (addStep size bits h) p = true := by
  rw [bitSet_eq_testBit] at hp ⊢
  unfold addStep
  by_cases hj : h % size / 8 = p / 8
  · by_cases hlt : h % size / 8 < bits.length
    · rw [hj] at hlt ⊢
      rw [List.getD_eq_getElem?_getD, List.getElem?_set_self hlt]
      simp only [Option.getD_some, Nat.testBit_lor]
      rw [List.getD_eq_getElem?_getD] at hp
      simp [hp]
    · rw [List.set_eq_of_length_le (Nat.le_of_not_lt hlt)]
      exact hp
  · rw [List.getD_eq_getElem?_getD, List.getElem?_set_ne hj, ← List.getD_eq_getElem?_getD]
    exact hp

theorem bitSet_addStep_self (size : Nat) (bits : List Nat) (h : Nat)
    (hlen : h % size / 8 < bits.length) :
    bitSet (addStep size bits h) (h % size) = true := by
  rw [bitSet_eq_testBit]
  unfold addStep
  rw [List.getD_eq_getElem?_getD, List.getElem?_set_self hlen]
  simp [Nat.testBit_lor, Nat.shiftLeft_eq, Nat.testBit_two_pow]

theorem bitSet_foldl_addStep_of_bitSet (size : Nat) (hs : List Nat) (bits : List Nat)
    (p : Nat) (hp : bitSet bits p = true) :
    bitSet (hs.foldl (addStep size) bits) p = true := by
  induction hs generalizing bits with
  | nil => exact hp
  | cons h t ih => exact ih _ (bitSet_addStep_of_bitSet size bits h p hp)

theorem foldl_addStep_length (size : Nat) (hs : List Nat) (bits : List Nat) :
    (hs.foldl (addStep size) bits).length = bits.length := by
  induction hs generalizing bits with
  | nil => rfl
  | cons h t ih => rw [List.foldl_cons, ih, addStep_length]

theorem pos_byte_lt (size x len : Nat) (_hsz : 0 < size) (hx : x < size)
    (hlen : len = (size + 7) / 8) : x / 8 < len := by
  subst hlen
  have h1 := Nat.div_add_mod x 8
  have h2 := Nat.div_add_mod (size + 7) 8
  have h3 : x % 8 < 8 := Nat.mod_lt _ (by norm_num)
  have h4 : (size + 7) % 8 < 8 := Nat.mod_lt _ (by norm_num)
  omega

theorem bitSet_foldl_addStep_mem (size : Nat) (hs : List Nat) (bits : List Nat)
    (hsz : 0 < size) (hlen : bits.length = (size + 7) / 8)
    (h : Nat) (hmem : h ∈ hs) :
    bitSet (hs.foldl (addStep size) bits) (h % size) = true := by
  induction hs generalizing bits with
  | nil => cases hmem
  | cons h0 t ih =>
    rw [List.foldl_cons]
    rcases List.mem_cons.mp hmem with rfl | hmem
    · exact bitSet_foldl_addStep_of_bitSet size t _ _
        (bitSet_addStep_self size bits h
          (hlen ▸ pos_byte_lt size (h % size) _ hsz (Nat.mod_lt _ hsz) rfl))
    · exact ih _ (by rw [addStep_length]; exact hlen) hmem

/-- Adding a key never clears a bit, so MayContain stays true across Add. -/
theorem mayContain_add_of_mayContain (bf : BloomFilter) (k k0 : List Nat)
    (h : bf.MayContain k0 = true) : (bf.Add k).MayContain k0 = true := by
  rw [mayContain_eq_all_bitSet] at h ⊢
  have hsz : (bf.Add k).size = bf.size := rfl
  have hh : (bf.Add k).getHashes k0 = bf.getHashes k0 := rfl
  rw [hh, add_bits_eq, hsz]
  rw [List.all_eq_true] at h ⊢
  intro x hx
  exact bitSet_foldl_addStep_of_bitSet bf.size _ _ _ (h x hx)

/-- After adding a key, MayContain answers true for it (no false negatives),
whenever the byte array has the length the constructor gave it. -/
theorem mayContain_add_self (bf : BloomFilter) (k : List Nat)
    (hsz : 0 < bf.size) (hlen : bf.bits.length = (bf.size + 7) / 8) :
    (bf.Add k).MayContain k = true := by
  rw [mayContain_eq_all_bitSet]
  have hh : (bf.Add k).getHashes k = bf.getHashes k := rfl
  rw [hh, add_bits_eq]
  rw [List.all_eq_true]
  intro x hx
  exact bitSet_foldl_addStep_mem bf.size _ _ hsz hlen x hx

theorem mayContain_foldl_of_mayContain (t : List (List Nat × List Nat))
    (bf : BloomFilter) (k : List Nat) (h : bf.MayContain k = true) :
    (t.foldl (fun b e => b.Add e.1) bf).MayContain k = true := by
  induction t generalizing bf with
  | nil => exact h
  | cons e t ih => exact ih _ (mayContain_add_of_mayContain bf e.1 k h)

theorem add_bits_length (bf : BloomFilter) (k : List Nat) :
    (bf.Add k).bits.length = bf.bits.length := by
  rw [add_bits_eq, foldl_addStep_length]

/-- Every key occurring in the fed records is reported possibly-present by
the filter the writer accumulates over them. -/
theorem mayContain_foldl_add (records : List (List Nat × List Nat))
    (bf : BloomFilter) (hsz : 0 < bf.size)
    (hlen : bf.bits.length = (bf.size + 7) / 8) (k : List Nat)
    (hk : ∃ e ∈ records, e.1 = k) :
    (records.foldl (fun b e => b.Add e.1) bf).MayContain k = true := by
  induction records generalizing bf with
  | nil => obtain ⟨e, he, _⟩ := hk; cases he
  | cons e t ih =>
    rw [List.foldl_cons]
    obtain ⟨e0, he0, hkey⟩ := hk
    rcases List.mem_cons.mp he0 with rfl | hmem
    · subst hkey
      exact mayContain_foldl_of_mayContain t _ _ (mayContain_add_self bf e0.1 hsz hlen)
    · have hsz2 : 0 < (bf.Add e.1).size := hsz
      have hlen2 : (bf.Add e.1).bits.length = ((bf.Add e.1).size + 7) / 8 := by
        rw [add_bits_length]; exact hlen
      exact ih _ hsz2 hlen2 ⟨e0, hmem, hkey⟩

/-- C7: for every table produced by the SSTable writer and every key, if the
table's Bloom filter answers definitely absent (MayContain = false) then the
key was never written to the table, and binary search in the table's index
does not find it: the filter has no false negative for an added key. -/
theorem c7_bloom_absent_implies_search_miss (records : List (List Nat × List Nat))
    (key : List Nat) (bf : BloomFilter)
    (hbf : (writeSSTable records).bloomFilter = some bf)
    (habs : bf.MayContain key = false) :
    (∀ r ∈ records, r.1 ≠ key) ∧ (writeSSTable records).indexFound key = false := by
  have hfold : bf = records.foldl (fun b e => b.Add e.1) newWriterBloomFilter := by
    match records, hbf with
    | e :: t, hbf => exact (Option.some_injective _ hbf).symm
  have hnever : ∀ r ∈ records, r.1 ≠ key := by
    intro r hr hkey
    have : bf.MayContain key = true := by
      rw [hfold]
      refine mayContain_foldl_add records newWriterBloomFilter ?_ ?_ key ⟨r, hr, hkey⟩
      · show 0 < 95851
        norm_num
      · show (List.replicate 11982 0).length = (95851 + 7) / 8
        rw [List.length_replicate]
    rw [habs] at this
    cases this
  refine ⟨hnever, ?_⟩
  by_contra hfound
  have hfound : (writeSSTable records).indexFound key = true := by
    cases h : (writeSSTable records).indexFound key
    · exact absurd h hfound
    · rfl
  unfold SSTable.indexFound at hfound
  rw [Bool.and_eq_true, decide_eq_true_iff, beq_iff_eq] at hfound
  obtain ⟨hlt, hkey⟩ := hfound
  have hent : (writeSSTable records).entries = records := rfl
  rw [hent] at hlt hkey
  have hget : records.getD ((writeSSTable records).searchIdx key) ([], []) ∈ records := by
    rw [List.getD_eq_getElem?_getD, List.getElem?_eq_getElem hlt]
    exact List.getElem_mem hlt
  exact hnever _ hget hkey

/-- C7 witness: a one-record table for key "a"; the filter reports "z"
definitely absent, and indeed "z" was never written and index search misses. -/
theorem c7_witness :
    (∀ r ∈ [([97], [98])], Prod.fst r ≠ [122]) ∧
      (writeSSTable [([97], [98])]).indexFound [122] = false :=
  c7_bloom_absent_implies_search_miss [([97], [98])] [122]
    ([([97], [98])].foldl (fun (b : BloomFilter) (e : List Nat × List Nat) => b.Add e.1)
      newWriterBloomFilter)
    (by rfl) (by decide)

/-! ## LSM engine runs (claims about put/delete/get sequences) -/

/-- The bytes of the Go string "key". -/
def kBytes : List Nat := [107, 101, 121]

/-- A 64 MiB value (bytes 0x61), large enough that a single Put reaches the
memtable flush threshold. -/
def bigValue : List Nat := List.replicate 67108864 97

theorem bigValue_length : bigValue.length = 67108864 := by
  rw [bigValue, List.length_replicate]

theorem bigValue_ne_tombstone : bigValue ≠ tombstoneBytes := by
  intro h
  have := congrArg List.length h
  rw [bigValue_length] at this
  simp [tombstoneBytes] at this

theorem bytesLt_irrefl (k : List Nat) : bytesLt k k = false := by
  induction k with
  | nil => rfl
  | cons a as ih => simp [bytesLt, ih]

theorem memTable_size_single (k v : List Nat) :
    MemTable.Size ⟨[(k, v)]⟩ = 0 + k.length + v.length + 8 := by
  show List.foldl _ 0 [(k, v)] = _
  simp only [List.foldl_cons, List.foldl_nil]

theorem size_big : MemTable.Size ⟨[(kBytes, bigValue)]⟩ = 67108875 := by
  rw [memTable_size_single, bigValue_length, show kBytes.length = 3 from rfl]

theorem lsm_put_eq (mt : MemTable) (imm : Option MemTable) (sst : List SSTable)
    (w : List Entry) (id : Nat) (k v : List Nat) (ts : Nat) :
    LSMStore.Put ⟨mt, imm, sst, w, id⟩ k v ts =
      if memTableSizeThreshold ≤ (mt.Put k v).Size then
        LSMStore.maybeFlush ⟨mt.Put k v, imm, sst, w ++ [⟨ts, OpPut, k, v⟩], id⟩
      else ⟨mt.Put k v, imm, sst, w ++ [⟨ts, OpPut, k, v⟩], id⟩ :=
  rfl

theorem lsm_delete_eq (mt : MemTable) (imm : Option MemTable) (sst : List SSTable)
    (w : List Entry) (id : Nat) (k : List Nat) (ts : Nat) :
    LSMStore.Delete ⟨mt, imm, sst, w, id⟩ k ts =
      if memTableSizeThreshold ≤ (mt.Delete k).Size then
        LSMStore.maybeFlush ⟨mt.Delete k, imm, sst, w ++ [⟨ts, OpDelete, k, []⟩], id⟩
      else ⟨mt.Delete k, imm, sst, w ++ [⟨ts, OpDelete, k, []⟩], id⟩ :=
  rfl

theorem lsm_maybeFlush_eq (mt : MemTable) (imm : Option MemTable) (sst : List SSTable)
    (w : List Entry) (id : Nat) :
    LSMStore.maybeFlush ⟨mt, imm, sst, w, id⟩ =
      if mt.Size < memTableSizeThreshold then ⟨mt, imm, sst, w, id⟩
      else ⟨MemTable.empty, none, writeSSTable mt.Iterator :: sst, [], id + 1⟩ :=
  rfl

/-- The state after putting the 64 MiB value under "key" into a fresh store:
the put reaches the threshold and flushes, leaving one SSTable holding the
record, a fresh memtable and an empty WAL. -/
theorem put_big_state :
    LSMStore.Put LSMStore.new kBytes bigValue 0 =
      ⟨MemTable.empty, none, [writeSSTable [(kBytes, bigValue)]], [], 1⟩ := by
  rw [show LSMStore.new = (⟨MemTable.empty, none, [], [], 0⟩ : LSMStore) from rfl,
    lsm_put_eq,
    show MemTable.empty.Put kBytes bigValue = (⟨[(kBytes, bigValue)]⟩ : MemTable) from rfl,
    size_big, if_pos (show memTableSizeThreshold ≤ 67108875 by norm_num [memTableSizeThreshold]),
    lsm_maybeFlush_eq, size_big,
    if_neg (show ¬(67108875 < memTableSizeThreshold) by norm_num [memTableSizeThreshold])]
  rfl

theorem mtGet_tombstone_head (k : List Nat) (rest : List (List Nat × List Nat)) :
    MemTable.Get ⟨(k, tombstoneBytes) :: rest⟩ k = none := by
  unfold MemTable.Get
  rw [List.find?_cons_of_pos _ (by simp)]
  simp

theorem lsmGet_no_imm (mt : MemTable) (sst : List SSTable) (w : List Entry) (id : Nat)
    (k : List Nat) (hmt : mt.Get k = none) :
    LSMStore.Get ⟨mt, none, sst, w, id⟩ k = LSMStore.scanSSTables k sst := by
  unfold LSMStore.Get
  rw [hmt]

theorem sst_searchIdx_head (k v : List Nat) (rest : List (List Nat × List Nat))
    (bfo : Option BloomFilter) :
    SSTable.searchIdx ⟨(k, v) :: rest, bfo⟩ k = 0 := by
  unfold SSTable.searchIdx
  show List.findIdx _ _ = 0
  rw [List.findIdx_cons]
  simp [bytesLt_irrefl]

theorem sst_indexFound_head (k v : List Nat) (rest : List (List Nat × List Nat))
    (bfo : Option BloomFilter) :
    SSTable.indexFound ⟨(k, v) :: rest, bfo⟩ k = true := by
  unfold SSTable.indexFound
  rw [sst_searchIdx_head]
  simp

theorem sst_get_head (k v : List Nat) (rest : List (List Nat × List Nat)) (bf : BloomFilter)
    (hmay : bf.MayContain k = true) :
    SSTable.Get ⟨(k, v) :: rest, some bf⟩ k = some v := by
  show (if (!bf.MayContain k) = true then none
    else if SSTable.indexFound ⟨(k, v) :: rest, some bf⟩ k = true then
      some (((k, v) :: rest).getD (SSTable.searchIdx ⟨(k, v) :: rest, some bf⟩ k) ([], [])).2
    else none) = some v
  rw [hmay, sst_indexFound_head, sst_searchIdx_head]
  simp

/-- The Bloom filter the writer builds over the single big record answers
possibly-present for "key". -/
theorem mayContain_big :
    ([(kBytes, bigValue)].foldl (fun b e => b.Add e.1) newWriterBloomFilter).MayContain
      kBytes = true := by
  refine mayContain_foldl_add [(kBytes, bigValue)] newWriterBloomFilter ?_ ?_ kBytes
    ⟨(kBytes, bigValue), by simp, rfl⟩
  · show 0 < 95851
    norm_num
  · show (List.replicate 11982 0).length = (95851 + 7) / 8
    rw [List.length_replicate]

theorem scan_big :
    LSMStore.scanSSTables kBytes [writeSSTable [(kBytes, bigValue)]] = some bigValue := by
  rw [show writeSSTable [(kBytes, bigValue)] =
      (⟨[(kBytes, bigValue)],
        some ([(kBytes, bigValue)].foldl (fun b e => b.Add e.1) newWriterBloomFilter)⟩ :
        SSTable) from rfl]
  unfold LSMStore.scanSSTables
  rw [sst_get_head _ _ _ _ mayContain_big]
  show (if bigValue = tombstoneBytes then none else some bigValue) = some bigValue
  rw [if_neg bigValue_ne_tombstone]

theorem delete_after_flush :
    LSMStore.Delete ⟨MemTable.empty, none, [writeSSTable [(kBytes, bigValue)]], [], 1⟩
      kBytes 1 =
      ⟨⟨[(kBytes, tombstoneBytes)]⟩, none, [writeSSTable [(kBytes, bigValue)]],
        [⟨1, OpDelete, kBytes, []⟩], 1⟩ := by
  rw [lsm_delete_eq,
    show MemTable.empty.Delete kBytes = (⟨[(kBytes, tombstoneBytes)]⟩ : MemTable) from rfl,
    show MemTable.Size ⟨[(kBytes, tombstoneBytes)]⟩ = 24 from rfl,
    if_neg (show ¬(memTableSizeThreshold ≤ 24) by norm_num [memTableSizeThreshold])]
  rfl

/-- C1: the claimed sequence semantics fail on the code. Failing run: put
"key" with a 64 MiB value into a fresh engine (the put flushes the memtable
into an SSTable), then delete "key", then get "key". The last delete should
make the key not-found, but get returns the old 64 MiB value: the memtable
reports the tombstoned key as plain absent, so the read falls through to the
older SSTable and resurrects the deleted value. -/
theorem c1_memtable_tombstone_shadowing_bug :
    LSMStore.Get
      (LSMStore.Delete (LSMStore.Put LSMStore.new kBytes bigValue 0) kBytes 1) kBytes
      = some bigValue := by
  rw [put_big_state, delete_after_flush,
    lsmGet_no_imm _ _ _ _ _ (mtGet_tombstone_head kBytes []), scan_big]

/-- C10 counterexample: after a put of the 64 MiB value under "key" (which
flushes) and then a public put of "key" with the user value "__TOMBSTONE__",
get "key" returns the old 64 MiB value, not not-found as the claim states. -/
theorem c10_counterexample_put_sentinel :
    LSMStore.Get
      (LSMStore.Put (LSMStore.Put LSMStore.new kBytes bigValue 0) kBytes tombstoneBytes 1)
      kBytes = some bigValue := by
  rw [put_big_state, lsm_put_eq,
    show MemTable.empty.Put kBytes tombstoneBytes = (⟨[(kBytes, tombstoneBytes)]⟩ : MemTable)
      from rfl,
    show MemTable.Size ⟨[(kBytes, tombstoneBytes)]⟩ = 24 from rfl,
    if_neg (show ¬(memTableSizeThreshold ≤ 24) by norm_num [memTableSizeThreshold]),
    lsmGet_no_imm _ _ _ _ _ (mtGet_tombstone_head kBytes []), scan_big]

theorem get_wal_irrel (mt : MemTable) (imm : Option MemTable) (sst : List SSTable)
    (w1 w2 : List Entry) (id1 id2 : Nat) (k : List Nat) :
    LSMStore.Get ⟨mt, imm, sst, w1, id1⟩ k = LSMStore.Get ⟨mt, imm, sst, w2, id2⟩ k :=
  rfl

theorem mayContain_single_self (k v : List Nat) :
    ([(k, v)].foldl (fun b e => b.Add e.1) newWriterBloomFilter).MayContain k = true := by
  refine mayContain_foldl_add [(k, v)] newWriterBloomFilter ?_ ?_ k ⟨(k, v), by simp, rfl⟩
  · show 0 < 95851
    norm_num
  · show (List.replicate 11982 0).length = (95851 + 7) / 8
    rw [List.length_replicate]

/-- C10 amended, part proved for every engine state: a public put of the
tombstone sentinel value is observationally identical to a delete (every
subsequent get answers the same), and on a fresh engine get of the key
answers not-found after it. -/
theorem c10_put_sentinel_eq_delete (s : LSMStore) (k : List Nat) (ts : Nat) (k2 : List Nat) :
    (s.Put k tombstoneBytes ts).Get k2 = (s.Delete k ts).Get k2 ∧
      LSMStore.Get (LSMStore.Put LSMStore.new k tombstoneBytes ts) k = none := by
  constructor
  · obtain ⟨mt, imm, sst, w, id⟩ := s
    rw [lsm_put_eq, lsm_delete_eq,
      show mt.Delete k = mt.Put k tombstoneBytes from rfl]
    by_cases hC : memTableSizeThreshold ≤ (mt.Put k tombstoneBytes).Size
    · rw [if_pos hC, if_pos hC, lsm_maybeFlush_eq, lsm_maybeFlush_eq]
      by_cases h2 : (mt.Put k tombstoneBytes).Size < memTableSizeThreshold
      · rw [if_pos h2, if_pos h2]
        exact get_wal_irrel _ _ _ _ _ _ _ _
      · rw [if_neg h2, if_neg h2]
    · rw [if_neg hC, if_neg hC]
      exact get_wal_irrel _ _ _ _ _ _ _ _
  · rw [show LSMStore.new = (⟨MemTable.empty, none, [], [], 0⟩ : LSMStore) from rfl,
      lsm_put_eq,
      show MemTable.empty.Put k tombstoneBytes = (⟨[(k, tombstoneBytes)]⟩ : MemTable) from rfl]
    by_cases hC : memTableSizeThreshold ≤ MemTable.Size ⟨[(k, tombstoneBytes)]⟩
    · rw [if_pos hC, lsm_maybeFlush_eq, if_neg (Nat.not_lt.mpr hC),
        show (⟨[(k, tombstoneBytes)]⟩ : MemTable).Iterator = [(k, tombstoneBytes)] from rfl,
        lsmGet_no_imm _ _ _ _ _ (show MemTable.Get MemTable.empty k = none from rfl),
        show writeSSTable [(k, tombstoneBytes)] =
          (⟨[(k, tombstoneBytes)],
            some ([(k, tombstoneBytes)].foldl (fun b e => b.Add e.1) newWriterBloomFilter)⟩ :
            SSTable) from rfl]
      unfold LSMStore.scanSSTables
      rw [sst_get_head _ _ _ _ (mayContain_single_self k tombstoneBytes)]
      show (if tombstoneBytes = tombstoneBytes then none
        else some tombstoneBytes) = (none : Option (List Nat))
      rw [if_pos rfl]
    · rw [if_neg hC,
        lsmGet_no_imm _ _ _ _ _ (mtGet_tombstone_head k [])]
      rfl

/-! ## Replication layer (replication/hinted_handoff.go, cluster/cluster_client.go) -/

/-- ReplicaResponse: one replica's answer as collected by the coordinator. -/
structure ReplicaResponse where
  NodeID : String
  Success : Bool
  Value : List Nat
  Version : Int
  Timestamp : Int
  Error : Option String
  deriving Repr, DecidableEq

/-- ReplicationFactor N. -/
def replicationFactor : Nat := 3

/-- WriteQuorum W. -/
def writeQuorum : Nat := 2

/-- ReadQuorum R. -/
def readQuorum : Nat := 2

/-- One comparison step of the ResolveConflict loop: keep the response with
the later timestamp, breaking a timestamp tie by the larger version. -/
def lwwStep (latest resp : ReplicaResponse) : ReplicaResponse :=
  if resp.Timestamp > latest.Timestamp then resp
  else if resp.Timestamp = latest.Timestamp then
    if resp.Version > latest.Version then resp else latest
  else latest

/-- ResolveConflict: Last-Write-Wins over the collected responses (none on
an empty list). -/
def ResolveConflict (responses : List ReplicaResponse) : Option ReplicaResponse :=
  match responses with
  | [] => none
  | r :: rs => some (rs.foldl lwwStep r)

/-- QuorumReached: at least `quorum` successful responses. -/
def QuorumReached (responses : List ReplicaResponse) (quorum : Nat) : Bool :=
  quorum ≤ responses.countP (fun r => r.Success)

/-- NeedsReadRepair: false for at most one response, otherwise true iff some
response differs from the first in timestamp or version. -/
def NeedsReadRepair (responses : List ReplicaResponse) : Bool :=
  match responses with
  | [] => false
  | [_] => false
  | r :: rs => rs.any fun x => x.Timestamp != r.Timestamp || x.Version != r.Version

/-- GetOutdatedReplicas: node ids of responses from a different node than
the winner whose timestamp is smaller or whose version is smaller. -/
def GetOutdatedReplicas (responses : List ReplicaResponse) (latest : ReplicaResponse) :
    List String :=
  (responses.filter fun r =>
    !(r.NodeID == latest.NodeID) &&
      (decide (r.Timestamp < latest.Timestamp) || decide (r.Version < latest.Version))).map
    ReplicaResponse.NodeID

/-- The per-replica outcome of a ReplicaGet RPC as it arrives on the result
channel of ClusterClient.Get. -/
structure GetResult where
  nodeID : String
  value : List Nat
  found : Bool
  version : Int
  timestamp : Int
  err : Option String
  deriving Repr, DecidableEq

/-- The coordinator keeps only the found responses (Success := true,
carrying value, version and timestamp). -/
def foundResponses (results : List GetResult) : List ReplicaResponse :=
  results.filterMap fun r =>
    if r.found then some ⟨r.nodeID, true, r.value, r.version, r.timestamp, none⟩ else none

/-- One asynchronous ReplicaPut issued by performReadRepair. -/
structure RepairWrite where
  nodeID : String
  key : String
  value : List Nat
  timestamp : Int
  version : Int
  deriving Repr, DecidableEq

/-- Outcome of ClusterClient.Get: quorum failure carrying the counts of the
error message, the not-found error, the conflict-resolution failure, or the
winning value together with the read-repair writes issued. -/
inductive GetOutcome where
  | quorumFail (got total need : Nat)
  | notFound
  | resolveFail
  | ok (value : List Nat) (repairs : List RepairWrite)
  deriving Repr, DecidableEq

/-- ClusterClient.Get after the fan-out: keep found responses; fail the read
quorum if fewer than R; return not-found if none; resolve by last-write-wins;
issue asynchronous repairs to the outdated replicas when responses disagree. -/
def ClusterGet (key : String) (results : List GetResult) : GetOutcome :=
  let responses := foundResponses results
  if responses.length < readQuorum then
    .quorumFail responses.length replicationFactor readQuorum
  else if responses.length = 0 then .notFound
  else
    match ResolveConflict responses with
    | none => .resolveFail
    | some latest =>
      let repairs :=
        if NeedsReadRepair responses then
          (GetOutdatedReplicas responses latest).map
            fun nid => ⟨nid, key, latest.Value, latest.Timestamp, latest.Version⟩
        else []
      .ok latest.Value repairs

/-- The last-write-wins order the spec describes: earlier timestamp, or equal
timestamp and no larger version. -/
def lwwLE (r w : ReplicaResponse) : Prop :=
  r.Timestamp < w.Timestamp ∨ (r.Timestamp = w.Timestamp ∧ r.Version ≤ w.Version)

theorem lwwLE_refl (r : ReplicaResponse) : lwwLE r r :=
  Or.inr ⟨rfl, le_refl _⟩

theorem lwwLE_trans {a b c : ReplicaResponse} (h1 : lwwLE a b) (h2 : lwwLE b c) :
    lwwLE a c := by
  unfold lwwLE at *
  rcases h1 with h1 | ⟨h1, h1v⟩ <;> rcases h2 with h2 | ⟨h2, h2v⟩
  · exact Or.inl (lt_trans h1 h2)
  · exact Or.inl (h2 ▸ h1)
  · exact Or.inl (h1 ▸ h2)
  · exact Or.inr ⟨h1.trans h2, le_trans h1v h2v⟩

theorem lwwStep_cases (a b : ReplicaResponse) : lwwStep a b = a ∨ lwwStep a b = b := by
  unfold lwwStep
  split
  · exact Or.inr rfl
  · split
    · split
      · exact Or.inr rfl
      · exact Or.inl rfl
    · exact Or.inl rfl

theorem lwwLE_step_left (a b : ReplicaResponse) : lwwLE a (lwwStep a b) := by
  unfold lwwStep
  split
  · exact Or.inl (by omega)
  · split
    · split
      · exact Or.inr ⟨by omega, by omega⟩
      · exact lwwLE_refl a
    · exact lwwLE_refl a

theorem lwwLE_step_right (a b : ReplicaResponse) : lwwLE b (lwwStep a b) := by
  unfold lwwStep
  split
  · exact lwwLE_refl b
  · split
    · split
      · exact lwwLE_refl b
      · exact Or.inr ⟨by omega, by omega⟩
    · exact Or.inl (by omega)

theorem foldl_lwwStep_spec (rs : List ReplicaResponse) (a : ReplicaResponse) :
    (rs.foldl lwwStep a = a ∨ rs.foldl lwwStep a ∈ rs) ∧ lwwLE a (rs.foldl lwwStep a) ∧
      ∀ x ∈ rs, lwwLE x (rs.foldl lwwStep a) := by
  induction rs generalizing a with
  | nil => exact ⟨Or.inl rfl, lwwLE_refl a, by intro x hx; cases hx⟩
  | cons b t ih =>
    obtain ⟨hmem, hle, hall⟩ := ih (lwwStep a b)
    rw [List.foldl_cons]
    refine ⟨?_, lwwLE_trans (lwwLE_step_left a b) hle, ?_⟩
    · rcases hmem with h | h
      · rcases lwwStep_cases a b with h2 | h2
        · exact Or.inl (h.trans h2)
        · refine Or.inr ?_
          rw [h, h2]
          exact List.mem_cons_self b t
      · exact Or.inr (List.mem_cons_of_mem b h)
    · intro x hx
      rcases List.mem_cons.mp hx with rfl | hx
      · exact lwwLE_trans (lwwLE_step_right a x) hle
      · exact hall x hx

/-- ResolveConflict picks a member of the responses that every response is
below in the last-write-wins order. -/
theorem resolveConflict_spec (responses : List ReplicaResponse) (hne : responses ≠ []) :
    ∃ w, ResolveConflict responses = some w ∧ w ∈ responses ∧
      ∀ x ∈ responses, lwwLE x w := by
  match responses, hne with
  | r :: rs, _ =>
    obtain ⟨hmem, hle, hall⟩ := foldl_lwwStep_spec rs r
    refine ⟨rs.foldl lwwStep r, rfl, ?_, ?_⟩
    · rcases hmem with h | h
      · rw [h]
        exact List.mem_cons_self r rs
      · exact List.mem_cons_of_mem r h
    · intro x hx
      rcases List.mem_cons.mp hx with rfl | hx
      · exact hle
      · exact hall x hx

theorem needsReadRepair_of_differ (responses : List ReplicaResponse)
    (x y : ReplicaResponse) (hx : x ∈ responses) (hy : y ∈ responses)
    (hne : x.Timestamp ≠ y.Timestamp ∨ x.Version ≠ y.Version) :
    NeedsReadRepair responses = true := by
  match responses with
  | [] => cases hx
  | [a] =>
    rw [List.mem_singleton] at hx hy
    subst hx; subst hy
    simp at hne
  | a :: b :: t =>
    show ((b :: t).any fun z => z.Timestamp != a.Timestamp || z.Version != a.Version) = true
    by_contra hno
    have hall : ∀ z ∈ b :: t, z.Timestamp = a.Timestamp ∧ z.Version = a.Version := by
      intro z hz
      by_contra hzne
      apply hno
      rw [List.any_eq_true]
      refine ⟨z, hz, ?_⟩
      simp only [bne_iff_ne, Bool.or_eq_true, ne_eq, decide_eq_true_eq]
      tauto
    have hfacts : ∀ z ∈ a :: b :: t, z.Timestamp = a.Timestamp ∧ z.Version = a.Version := by
      intro z hz
      rcases List.mem_cons.mp hz with rfl | hz
      · exact ⟨rfl, rfl⟩
      · exact hall z hz
    obtain ⟨hx1, hx2⟩ := hfacts x hx
    obtain ⟨hy1, hy2⟩ := hfacts y hy
    rcases hne with h | h
    · exact h (hx1.trans hy1.symm)
    · exact h (hx2.trans hy2.symm)

theorem mem_getOutdatedReplicas (responses : List ReplicaResponse)
    (latest r : ReplicaResponse) (hr : r ∈ responses) (hid : r.NodeID ≠ latest.NodeID)
    (hcond : r.Timestamp < latest.Timestamp ∨ r.Version < latest.Version) :
    r.NodeID ∈ GetOutdatedReplicas responses latest := by
  unfold GetOutdatedReplicas
  apply List.mem_map_of_mem
  rw [List.mem_filter]
  refine ⟨hr, ?_⟩
  simp only [Bool.and_eq_true, Bool.not_eq_true', beq_eq_false_iff_ne, ne_eq,
    Bool.or_eq_true, decide_eq_true_eq]
  exact ⟨hid, hcond⟩

theorem clusterGet_eq_ok (key : String) (results : List GetResult) (w : ReplicaResponse)
    (hlen : readQuorum ≤ (foundResponses results).length)
    (hres : ResolveConflict (foundResponses results) = some w) :
    ClusterGet key results =
      .ok w.Value
        (if NeedsReadRepair (foundResponses results) then
          (GetOutdatedReplicas (foundResponses results) w).map
            fun nid => ⟨nid, key, w.Value, w.Timestamp, w.Version⟩
        else []) := by
  simp only [ClusterGet]
  rw [if_neg (Nat.not_lt.mpr hlen),
    if_neg (by
      have h2 : readQuorum = 2 := rfl
      omega),
    hres]

/-- C2: whenever the coordinator Get keeps at least R found responses (from
distinct nodes), it returns the value of the response with maximum timestamp,
ties broken by larger version, and every other found responder that is
strictly older (smaller timestamp, or equal timestamp and smaller version) is
issued an asynchronous replica-write carrying the winner's value, timestamp
and version. -/
theorem c2_lww_get_and_read_repair (key : String) (results : List GetResult)
    (hlen : readQuorum ≤ (foundResponses results).length)
    (hnodup : ((foundResponses results).map ReplicaResponse.NodeID).Nodup) :
    ∃ w, ResolveConflict (foundResponses results) = some w ∧
      w ∈ foundResponses results ∧
      (∀ r ∈ foundResponses results, lwwLE r w) ∧
      ∃ repairs, ClusterGet key results = .ok w.Value repairs ∧
        ∀ r ∈ foundResponses results,
          r.Timestamp < w.Timestamp ∨ (r.Timestamp = w.Timestamp ∧ r.Version < w.Version) →
          (⟨r.NodeID, key, w.Value, w.Timestamp, w.Version⟩ : RepairWrite) ∈ repairs := by
  have hne : foundResponses results ≠ [] := by
    intro h
    rw [h] at hlen
    have h2 : readQuorum = 2 := rfl
    simp at hlen
    omega
  obtain ⟨w, hres, hmem, hmax⟩ := resolveConflict_spec _ hne
  refine ⟨w, hres, hmem, hmax,
    (if NeedsReadRepair (foundResponses results) then
      (GetOutdatedReplicas (foundResponses results) w).map
        fun nid => ⟨nid, key, w.Value, w.Timestamp, w.Version⟩
    else []), clusterGet_eq_ok key results w hlen hres, ?_⟩
  intro r hr hcond
  have hdiff : r.Timestamp ≠ w.Timestamp ∨ r.Version ≠ w.Version := by
    rcases hcond with h | ⟨h1, h2⟩
    · exact Or.inl (by omega)
    · exact Or.inr (by omega)
  rw [if_pos (needsReadRepair_of_differ _ r w hr hmem hdiff)]
  have hrw : r ≠ w := by
    intro he
    subst he
    rcases hcond with h | ⟨h1, h2⟩ <;> omega
  have hid : r.NodeID ≠ w.NodeID := fun he =>
    hrw (List.inj_on_of_nodup_map hnodup hr hmem he)
  have hcond2 : r.Timestamp < w.Timestamp ∨ r.Version < w.Version := by
    rcases hcond with h | ⟨h1, h2⟩
    · exact Or.inl h
    · exact Or.inr h2
  exact List.mem_map_of_mem _ (mem_getOutdatedReplicas _ w r hr hid hcond2)

/-- Replica read outcomes of the quorum-LWW scenario: three found responses
with timestamps 1000 < 2000 < 3000, versions 0, 1000, 3000. -/
def resultsLWW : List GetResult :=
  [⟨"n1", [10], true, 0, 1000, none⟩,
   ⟨"n2", [20], true, 3000, 3000, none⟩,
   ⟨"n3", [30], true, 1000, 2000, none⟩]

/-- C2 witness: the scenario above satisfies the quorum and distinctness
hypotheses, so the coordinator returns the newest value and repairs the two
stale responders. -/
theorem c2_witness :
    ∃ w, ResolveConflict (foundResponses resultsLWW) = some w ∧
      w ∈ foundResponses resultsLWW ∧
      (∀ r ∈ foundResponses resultsLWW, lwwLE r w) ∧
      ∃ repairs, ClusterGet "k" resultsLWW = .ok w.Value repairs ∧
        ∀ r ∈ foundResponses resultsLWW,
          r.Timestamp < w.Timestamp ∨ (r.Timestamp = w.Timestamp ∧ r.Version < w.Version) →
          (⟨r.NodeID, "k", w.Value, w.Timestamp, w.Version⟩ : RepairWrite) ∈ repairs :=
  c2_lww_get_and_read_repair "k" resultsLWW (by decide) (by decide)

/-- C4 counterexample: with zero found responses the coordinator Get returns
the quorum-failure outcome (0 of 3, need 2), not the distinct not-found
outcome the claim promises for the zero case. -/
theorem c4_counterexample_zero_found :
    ClusterGet "k" [] = .quorumFail 0 3 2 ∧ ClusterGet "k" [] ≠ .notFound := by
  constructor
  · rfl
  · decide

/-- C4 amended: fewer than R found responses always fail with the
quorum-failure outcome carrying the counts — also when zero replicas found
the key — and the distinct not-found outcome is never returned (its branch is
unreachable because R = 2 > 0). -/
theorem c4_below_R_is_quorum_failure (key : String) (results : List GetResult)
    (h : (foundResponses results).length < readQuorum) :
    ClusterGet key results =
      .quorumFail (foundResponses results).length replicationFactor readQuorum ∧
      ∀ key2 results2, ClusterGet key2 results2 ≠ GetOutcome.notFound := by
  constructor
  · simp only [ClusterGet]
    rw [if_pos h]
  · intro key2 results2
    simp only [ClusterGet]
    by_cases h1 : (foundResponses results2).length < readQuorum
    · rw [if_pos h1]
      intro hc
      cases hc
    · rw [if_neg h1,
        if_neg (by
          have h2 : readQuorum = 2 := rfl
          omega)]
      cases hres : ResolveConflict (foundResponses results2) <;> intro hc <;> cases hc

/-- C4 witness: a single found response is below the read quorum of two, so
the call fails with quorum-failure 1 of 3 (need 2). -/
theorem c4_witness :
    ClusterGet "k" [⟨"n1", [7], true, 5, 5, none⟩] =
      .quorumFail (foundResponses [⟨"n1", [7], true, 5, 5, none⟩]).length
        replicationFactor readQuorum ∧
      ∀ key2 results2, ClusterGet key2 results2 ≠ GetOutcome.notFound :=
  c4_below_R_is_quorum_failure "k" [⟨"n1", [7], true, 5, 5, none⟩] (by decide)

/-! ## Hinted handoff (replication/hinted_handoff.go) and the Put hint phase -/

/-- Hint: a write to be replayed to a temporarily unavailable node. -/
structure Hint where
  TargetNode : String
  Key : String
  Value : List Nat
  Timestamp : Int
  Version : Int
  CreatedAt : Int
  deriving Repr, DecidableEq

/-- HintedHandoff state: per-target hint lists and the per-node capacity.
Persistence writes the same per-target list to hints_<target>.json, so the
in-memory map is the observable state. -/
structure HintedHandoff where
  hints : List (String × List Hint)
  maxHints : Nat
  deriving Repr, DecidableEq

namespace HintedHandoff

/-- The empty store NewHintedHandoff builds (maxHints 10000). -/
def new : HintedHandoff := ⟨[], 10000⟩

/-- The hints recorded for a target (Go map lookup, empty when absent). -/
def hintsFor (hh : HintedHandoff) (target : String) : List Hint :=
  match hh.hints.find? (fun e => e.1 = target) with
  | some e => e.2
  | none => []

/-- Association-list update used to model assignment to the Go map entry. -/
def setHints (l : List (String × List Hint)) (target : String) (v : List Hint) :
    List (String × List Hint) :=
  match l with
  | [] => [(target, v)]
  | e :: t => if e.1 = target then (target, v) :: t else e :: setHints t target v

/-- StoreHint: reject with a capacity error when the target already holds
maxHints hints, otherwise append the new hint to the target's list. -/
def StoreHint (hh : HintedHandoff) (targetNode key : String) (value : List Nat)
    (timestamp version now : Int) : Except String HintedHandoff :=
  if hh.maxHints ≤ (hh.hintsFor targetNode).length then
    .error "max hints reached"
  else
    .ok { hh with
      hints := setHints hh.hints targetNode
        (hh.hintsFor targetNode ++ [⟨targetNode, key, value, timestamp, version, now⟩]) }

end HintedHandoff

/-- One collected result of a ReplicaPut fan-out call in ClusterClient.Put:
node id, the response's success flag, and the transport error if any. -/
structure PutResult where
  nodeID : String
  success : Bool
  err : Option String
  deriving Repr, DecidableEq

/-- One step of the hint phase of ClusterClient.Put: a hint is stored for a
replica exactly when its result has success false AND a non-nil error
(`!res.success && res.err != nil`); the error StoreHint may return is
ignored. -/
def putHintStep (key : String) (value : List Nat) (timestamp version now : Int)
    (st : HintedHandoff) (res : PutResult) : HintedHandoff :=
  if !res.success && res.err.isSome then
    match st.StoreHint res.nodeID key value timestamp version now with
    | .ok st2 => st2
    | .error _ => st
  else st

/-- The hint phase of ClusterClient.Put over all collected results. -/
def putStoreHints (hh : HintedHandoff) (results : List PutResult) (key : String)
    (value : List Nat) (timestamp version now : Int) : HintedHandoff :=
  results.foldl (putHintStep key value timestamp version now) hh


theorem hintsFor_nil (mx : Nat) (t2 : String) :
    HintedHandoff.hintsFor ⟨[], mx⟩ t2 = [] := rfl

theorem hintsFor_cons (e : String × List Hint) (rest : List (String × List Hint))
    (mx : Nat) (t2 : String) :
    HintedHandoff.hintsFor ⟨e :: rest, mx⟩ t2 =
      if e.1 = t2 then e.2 else HintedHandoff.hintsFor ⟨rest, mx⟩ t2 := by
  unfold HintedHandoff.hintsFor
  rw [List.find?]
  by_cases h : e.1 = t2
  · simp [h]
  · simp [h]

theorem hintsFor_setHints (l : List (String × List Hint)) (mx : Nat) (t t2 : String)
    (v : List Hint) :
    HintedHandoff.hintsFor ⟨HintedHandoff.setHints l t v, mx⟩ t2 =
      if t = t2 then v else HintedHandoff.hintsFor ⟨l, mx⟩ t2 := by
  induction l with
  | nil =>
    rw [show HintedHandoff.setHints [] t v = [(t, v)] from rfl, hintsFor_cons, hintsFor_nil]
  | cons e rest ih =>
    by_cases he : e.1 = t
    · rw [show HintedHandoff.setHints (e :: rest) t v = (t, v) :: rest from by
        simp [HintedHandoff.setHints, he]]
      rw [hintsFor_cons, hintsFor_cons]
      by_cases h : t = t2
      · simp [h]
      · have h2 : e.1 ≠ t2 := fun hc => h (he ▸ hc)
        simp [h, h2]
    · rw [show HintedHandoff.setHints (e :: rest) t v = e :: HintedHandoff.setHints rest t v
        from by simp [HintedHandoff.setHints, he]]
      rw [hintsFor_cons, hintsFor_cons]
      by_cases h2 : e.1 = t2
      · have h : t ≠ t2 := fun hc => he (hc ▸ h2)
        simp [h, h2]
      · rw [if_neg h2, if_neg h2, ih]

theorem putHintStep_eq (key : String) (value : List Nat) (ts ver now : Int)
    (st : HintedHandoff) (res : PutResult) :
    putHintStep key value ts ver now st res =
      if res.success = false ∧ res.err.isSome = true ∧
          (st.hintsFor res.nodeID).length < st.maxHints then
        ⟨HintedHandoff.setHints st.hints res.nodeID
          (st.hintsFor res.nodeID ++ [⟨res.nodeID, key, value, ts, ver, now⟩]),
          st.maxHints⟩
      else st := by
  unfold putHintStep HintedHandoff.StoreHint
  cases hs : res.success
  · cases he : res.err.isSome
    · simp [hs, he]
    · by_cases hcap : st.maxHints ≤ (st.hintsFor res.nodeID).length
      · rw [if_pos (by simp [hs, he]), if_pos hcap,
          if_neg (by simp [Nat.not_lt.mpr hcap])]
      · rw [if_pos (by simp [hs, he]), if_neg hcap,
          if_pos ⟨rfl, rfl, Nat.not_le.mp hcap⟩]
  · simp [hs]

theorem putHintStep_maxHints (key : String) (value : List Nat) (ts ver now : Int)
    (st : HintedHandoff) (res : PutResult) :
    (putHintStep key value ts ver now st res).maxHints = st.maxHints := by
  rw [putHintStep_eq]
  by_cases h : res.success = false ∧ res.err.isSome = true ∧
      (st.hintsFor res.nodeID).length < st.maxHints
  · rw [if_pos h]
  · rw [if_neg h]

theorem putHintStep_other (key : String) (value : List Nat) (ts ver now : Int)
    (st : HintedHandoff) (res : PutResult) (t : String) (ht : res.nodeID ≠ t) :
    (putHintStep key value ts ver now st res).hintsFor t = st.hintsFor t := by
  rw [putHintStep_eq]
  by_cases h : res.success = false ∧ res.err.isSome = true ∧
      (st.hintsFor res.nodeID).length < st.maxHints
  · rw [if_pos h]
    show HintedHandoff.hintsFor ⟨_, st.maxHints⟩ t = st.hintsFor t
    rw [hintsFor_setHints, if_neg ht]
  · rw [if_neg h]

theorem putStoreHints_not_mem (results : List PutResult) (hh : HintedHandoff)
    (key : String) (value : List Nat) (ts ver now : Int) (t : String)
    (ht : t ∉ results.map PutResult.nodeID) :
    (putStoreHints hh results key value ts ver now).hintsFor t = hh.hintsFor t := by
  induction results generalizing hh with
  | nil => rfl
  | cons res rest ih =>
    show (putStoreHints (putHintStep key value ts ver now hh res) rest key value ts ver
      now).hintsFor t = hh.hintsFor t
    rw [List.map_cons] at ht
    rw [ih _ (fun hc => ht (List.mem_cons_of_mem _ hc)),
      putHintStep_other _ _ _ _ _ _ _ _ (fun hc => ht (hc ▸ List.mem_cons_self _ _))]

theorem putStoreHints_maxHints (results : List PutResult) (hh : HintedHandoff)
    (key : String) (value : List Nat) (ts ver now : Int) :
    (putStoreHints hh results key value ts ver now).maxHints = hh.maxHints := by
  induction results generalizing hh with
  | nil => rfl
  | cons res rest ih =>
    show (putStoreHints (putHintStep key value ts ver now hh res) rest key value ts ver
      now).maxHints = hh.maxHints
    rw [ih, putHintStep_maxHints]

/-- C3 counterexample: one replica answers with an explicit non-success
response and no transport error; the claim demands a durably recorded hint
for it, but the hint store is left completely unchanged (no hint for n1). -/
theorem c3_counterexample_nonsuccess_no_hint :
    putStoreHints HintedHandoff.new [⟨"n1", false, none⟩] "k" [1] 5 5 0 =
      HintedHandoff.new ∧
      (putStoreHints HintedHandoff.new [⟨"n1", false, none⟩] "k" [1] 5 5 0).hintsFor "n1"
        = [] := by
  constructor
  · rfl
  · rfl

/-- C3 amended: during the hint phase of a coordinator Put (over results with
distinct node ids), a hint for a replica is recorded exactly when its
replica-write failed with a transport error (success false AND non-nil
error) and the target is below the hint capacity; an explicit non-success
response without a transport error, a success, or a target at capacity
leaves that replica's hints unchanged. -/
theorem c3_hint_iff_transport_error (hh : HintedHandoff) (results : List PutResult)
    (key : String) (value : List Nat) (ts ver now : Int) (r : PutResult)
    (hnodup : (results.map PutResult.nodeID).Nodup) (hr : r ∈ results) :
    (putStoreHints hh results key value ts ver now).hintsFor r.nodeID =
      if r.success = false ∧ r.err.isSome = true ∧
          (hh.hintsFor r.nodeID).length < hh.maxHints then
        hh.hintsFor r.nodeID ++ [⟨r.nodeID, key, value, ts, ver, now⟩]
      else hh.hintsFor r.nodeID := by
  induction results generalizing hh with
  | nil => cases hr
  | cons res rest ih =>
    rw [List.map_cons, List.nodup_cons] at hnodup
    rcases List.mem_cons.mp hr with rfl | hmem
    · show (putStoreHints (putHintStep key value ts ver now hh r) rest key value ts ver
        now).hintsFor r.nodeID = _
      rw [putStoreHints_not_mem _ _ _ _ _ _ _ _ hnodup.1, putHintStep_eq]
      by_cases h : r.success = false ∧ r.err.isSome = true ∧
          (hh.hintsFor r.nodeID).length < hh.maxHints
      · rw [if_pos h, if_pos h]
        show HintedHandoff.hintsFor ⟨_, hh.maxHints⟩ r.nodeID = _
        rw [hintsFor_setHints, if_pos rfl]
      · rw [if_neg h, if_neg h]
    · have hne : res.nodeID ≠ r.nodeID := by
        intro hc
        exact hnodup.1 (hc ▸ List.mem_map_of_mem PutResult.nodeID hmem)
      show (putStoreHints (putHintStep key value ts ver now hh res) rest key value ts ver
        now).hintsFor r.nodeID = _
      rw [ih _ hnodup.2 hmem, putHintStep_other _ _ _ _ _ _ _ _ hne,
        putHintStep_maxHints]

/-- C3 witness: a replica failing with a transport error gets its hint
appended to an empty store. -/
theorem c3_witness :
    (putStoreHints HintedHandoff.new [⟨"n2", false, some "timeout"⟩] "k" [1] 5 5 0).hintsFor
      "n2" =
      if (false : Bool) = false ∧ (some "timeout").isSome = true ∧
          (HintedHandoff.new.hintsFor "n2").length < HintedHandoff.new.maxHints then
        HintedHandoff.new.hintsFor "n2" ++ [⟨"n2", "k", [1], 5, 5, 0⟩]
      else HintedHandoff.new.hintsFor "n2" :=
  c3_hint_iff_transport_error HintedHandoff.new [⟨"n2", false, some "timeout"⟩] "k" [1]
    5 5 0 ⟨"n2", false, some "timeout"⟩ (by decide) (by decide)

/-! ## WAL record framing and replay (WAL.Write framing, WAL.ReadAll/readEntry) -/

/-- Little-endian encoding of x on w bytes (as Go binary.Write of a w-byte
integer: the value is truncated modulo 256^w). -/
def natToLeBytes : Nat → Nat → List Nat
  | 0, _ => []
  | w + 1, x => (x % 256) :: natToLeBytes w (x / 256)

/-- Little-endian decoding, as Go binary.Read assembles a w-byte integer. -/
def leBytesToNat (bs : List Nat) : Nat :=
  bs.foldr (fun b acc => b + 256 * acc) 0

theorem natToLeBytes_length (w x : Nat) : (natToLeBytes w x).length = w := by
  induction w generalizing x with
  | zero => rfl
  | succ w ih =>
    show ((x % 256) :: natToLeBytes w (x / 256)).length = w + 1
    rw [List.length_cons, ih]

theorem leBytesToNat_natToLeBytes (w x : Nat) (h : x < 256 ^ w) :
    leBytesToNat (natToLeBytes w x) = x := by
  induction w generalizing x with
  | zero =>
    have : x = 0 := by
      rw [pow_zero] at h
      omega
    subst this
    rfl
  | succ w ih =>
    show leBytesToNat ((x % 256) :: natToLeBytes w (x / 256)) = x
    unfold leBytesToNat
    rw [List.foldr_cons]
    have hdiv : x / 256 < 256 ^ w := by
      rw [Nat.div_lt_iff_lt_mul (by norm_num : 0 < 256)]
      rw [pow_succ] at h
      exact h
    have := ih (x / 256) hdiv
    unfold leBytesToNat at this
    rw [this, Nat.mod_add_div x 256]

/-- The read-error kinds replay distinguishes: io.EOF (clean end of file) and
io.ErrUnexpectedEOF (a read that got some but not all requested bytes). -/
inductive ReadErr where
  | eof
  | unexpectedEof
  deriving Repr, DecidableEq

/-- io.ReadFull / binary.Read on the remaining stream: n = 0 succeeds with
nothing; zero available bytes yield io.EOF; fewer than n available bytes
yield io.ErrUnexpectedEOF; otherwise exactly n bytes are consumed. -/
def readBytes (n : Nat) (s : List Nat) : Except ReadErr (List Nat × List Nat) :=
  if n = 0 then .ok ([], s)
  else if s.length = 0 then .error .eof
  else if s.length < n then .error .unexpectedEof
  else .ok (s.take n, s.drop n)

theorem readBytes_exact (a b : List Nat) : readBytes a.length (a ++ b) = .ok (a, b) := by
  unfold readBytes
  by_cases h0 : a.length = 0
  · rw [if_pos h0]
    rw [List.length_eq_zero] at h0
    subst h0
    rfl
  · rw [if_neg h0,
      if_neg (by
        rw [List.length_append]
        omega),
      if_neg (by
        rw [List.length_append]
        omega),
      List.take_left, List.drop_left]

theorem readBytes_ok_le (n : Nat) (s a r : List Nat)
    (h : readBytes n s = .ok (a, r)) : r.length ≤ s.length ∧ (0 < n → r.length < s.length) := by
  unfold readBytes at h
  split_ifs at h with h1 h2 h3 <;>
    first
    | exact Except.noConfusion h
    | (injection h with h4
       injection h4 with h5 h6
       subst h6
       refine ⟨?_, fun hn => ?_⟩ <;> (try simp only [List.length_drop]) <;> omega)

namespace WAL

/-- readEntry: timestamp (8 bytes LE), op byte, key length (4 bytes LE), key
bytes, value length (4 bytes LE), value bytes; the first read error aborts
the entry. -/
def readEntry (s : List Nat) : Except ReadErr (Entry × List Nat) :=
  match readBytes 8 s with
  | .error e => .error e
  | .ok (tsb, s1) =>
    match readBytes 1 s1 with
    | .error e => .error e
    | .ok (opb, s2) =>
      match readBytes 4 s2 with
      | .error e => .error e
      | .ok (klb, s3) =>
        match readBytes (leBytesToNat klb) s3 with
        | .error e => .error e
        | .ok (key, s4) =>
          match readBytes 4 s4 with
          | .error e => .error e
          | .ok (vlb, s5) =>
            match readBytes (leBytesToNat vlb) s5 with
            | .error e => .error e
            | .ok (value, s6) =>
              .ok (⟨leBytesToNat tsb, opb.headD 0, key, value⟩, s6)

theorem readEntry_ok_length (s : List Nat) (e : Entry) (rest : List Nat)
    (h : readEntry s = .ok (e, rest)) : rest.length < s.length := by
  unfold readEntry at h
  cases hb1 : readBytes 8 s with
  | error e1 =>
    simp only [hb1] at h
    exact Except.noConfusion h
  | ok p1 =>
    obtain ⟨tsb, s1⟩ := p1
    simp only [hb1] at h
    cases hb2 : readBytes 1 s1 with
    | error e2 =>
    simp only [hb2] at h
    exact Except.noConfusion h
    | ok p2 =>
      obtain ⟨opb, s2⟩ := p2
      simp only [hb2] at h
      cases hb3 : readBytes 4 s2 with
      | error e3 =>
    simp only [hb3] at h
    exact Except.noConfusion h
      | ok p3 =>
        obtain ⟨klb, s3⟩ := p3
        simp only [hb3] at h
        cases hb4 : readBytes (leBytesToNat klb) s3 with
        | error e4 =>
    simp only [hb4] at h
    exact Except.noConfusion h
        | ok p4 =>
          obtain ⟨key, s4⟩ := p4
          simp only [hb4] at h
          cases hb5 : readBytes 4 s4 with
          | error e5 =>
    simp only [hb5] at h
    exact Except.noConfusion h
          | ok p5 =>
            obtain ⟨vlb, s5⟩ := p5
            simp only [hb5] at h
            cases hb6 : readBytes (leBytesToNat vlb) s5 with
            | error e6 =>
    simp only [hb6] at h
    exact Except.noConfusion h
            | ok p6 =>
              obtain ⟨value, s6⟩ := p6
              simp only [hb6, Except.ok.injEq, Prod.mk.injEq] at h
              have hrest : s6 = rest := h.2
              subst hrest
              have l1 := (readBytes_ok_le 8 s tsb s1 hb1).2 (by norm_num)
              have l2 := (readBytes_ok_le 1 s1 opb s2 hb2).1
              have l3 := (readBytes_ok_le 4 s2 klb s3 hb3).1
              have l4 := (readBytes_ok_le (leBytesToNat klb) s3 key s4 hb4).1
              have l5 := (readBytes_ok_le 4 s4 vlb s5 hb5).1
              have l6 := (readBytes_ok_le (leBytesToNat vlb) s5 value s6 hb6).1
              omega

/-- ReadAll: read entries until the first io.EOF (clean stop returning the
entries so far) or any other error (replay fails). -/
def ReadAll (s : List Nat) : Except ReadErr (List Entry) :=
  match h : readEntry s with
  | .error .eof => .ok []
  | .error .unexpectedEof => .error .unexpectedEof
  | .ok (e, rest) =>
    match ReadAll rest with
    | .error er => .error er
    | .ok es => .ok (e :: es)
termination_by s.length
decreasing_by exact readEntry_ok_length _ _ _ h

end WAL

/-- The byte framing WAL.Write appends for one entry:
[ts:i64 LE][op:u8][keylen:u32 LE][key][vallen:u32 LE][value] (the op and the
length fields truncate exactly as the Go byte/uint32 conversions do). -/
def walEncodeEntry (e : Entry) : List Nat :=
  natToLeBytes 8 e.Timestamp ++ [e.Op % 256] ++ natToLeBytes 4 e.Key.length ++
    e.Key ++ natToLeBytes 4 e.Value.length ++ e.Value

/-- An entry whose fields fit the WAL frame: the timestamp bit pattern in 64
bits, the op in one byte, the lengths in 32 bits. -/
def wellFormedEntry (e : Entry) : Prop :=
  e.Timestamp < 256 ^ 8 ∧ e.Op < 256 ∧ e.Key.length < 256 ^ 4 ∧ e.Value.length < 256 ^ 4

theorem readBytes_exact' (n : Nat) (a : List Nat) (h : a.length = n) (b : List Nat) :
    readBytes n (a ++ b) = .ok (a, b) := by
  subst h
  exact readBytes_exact a b

theorem readBytes_all (n : Nat) (a : List Nat) (h : a.length = n) :
    readBytes n a = .ok (a, []) :=
  calc readBytes n a = readBytes n (a ++ []) := by rw [List.append_nil]
    _ = .ok (a, []) := readBytes_exact' n a h []

theorem readBytes_nil (n : Nat) (h : 0 < n) : readBytes n [] = .error .eof := by
  unfold readBytes
  rw [if_neg (by omega), if_pos (show List.length ([] : List Nat) = 0 from rfl)]

theorem readBytes_zero (s : List Nat) : readBytes 0 s = .ok ([], s) := by
  unfold readBytes
  rw [if_pos rfl]

theorem readEntry_nil : WAL.readEntry [] = .error .eof := rfl

/-- Parsing inverts the WAL framing: a full encoded record followed by any
tail parses to the record and the tail. -/
theorem readEntry_encode (e : Entry) (rest : List Nat) (hwf : wellFormedEntry e) :
    WAL.readEntry (walEncodeEntry e ++ rest) = .ok (e, rest) := by
  obtain ⟨ts, op, key, value⟩ := e
  obtain ⟨h1, h2, h3, h4⟩ := hwf
  have harr : walEncodeEntry ⟨ts, op, key, value⟩ ++ rest =
      natToLeBytes 8 ts ++ ([op % 256] ++ (natToLeBytes 4 key.length ++ (key ++
        (natToLeBytes 4 value.length ++ (value ++ rest))))) := by
    simp [walEncodeEntry, List.append_assoc]
  rw [harr]
  simp only [WAL.readEntry,
    readBytes_exact' 8 (natToLeBytes 8 ts) (natToLeBytes_length 8 ts),
    readBytes_exact' 1 [op % 256] rfl,
    readBytes_exact' 1 [op] rfl,
    readBytes_exact' 4 (natToLeBytes 4 key.length) (natToLeBytes_length 4 key.length),
    readBytes_exact' 4 (natToLeBytes 4 value.length) (natToLeBytes_length 4 value.length),
    leBytesToNat_natToLeBytes 4 key.length h3,
    leBytesToNat_natToLeBytes 4 value.length h4,
    leBytesToNat_natToLeBytes 8 ts h1,
    readBytes_exact' key.length key rfl,
    readBytes_exact' value.length value rfl,
    List.headD_cons, Nat.mod_eq_of_lt h2]

theorem readAll_append (es : List Entry) (tail : List Nat)
    (hwf : ∀ r ∈ es, wellFormedEntry r) (htail : WAL.readEntry tail = .error .eof) :
    WAL.ReadAll ((es.map walEncodeEntry).flatten ++ tail) = .ok es := by
  induction es with
  | nil =>
    rw [List.map_nil, List.flatten_nil, List.nil_append, WAL.ReadAll.eq_1]
    split
    · rfl
    · rename_i heq
      rw [htail] at heq
      exact absurd heq (by simp)
    · rename_i e rest heq
      rw [htail] at heq
      exact absurd heq (by simp)
  | cons e t ih =>
    rw [List.map_cons, List.flatten_cons, List.append_assoc, WAL.ReadAll.eq_1]
    have henc := readEntry_encode e ((t.map walEncodeEntry).flatten ++ tail)
      (hwf e (List.mem_cons_self e t))
    split
    · rename_i heq
      rw [henc] at heq
      exact absurd heq (by simp)
    · rename_i heq
      rw [henc] at heq
      exact absurd heq (by simp)
    · rename_i e2 rest2 heq
      rw [henc] at heq
      injection heq with h2
      injection h2 with he hrest
      subst he
      subst hrest
      rw [ih (fun r hr => hwf r (List.mem_cons_of_mem e hr))]

/-- A partial trailing record that breaks exactly at a field boundary makes
the next entry read fail with clean io.EOF. -/
theorem readEntry_boundary_eof (e : Entry) (partialBytes : List Nat)
    (hwf : wellFormedEntry e)
    (hclean :
      partialBytes = [] ∨
      partialBytes = natToLeBytes 8 e.Timestamp ∨
      partialBytes = natToLeBytes 8 e.Timestamp ++ [e.Op % 256] ∨
      partialBytes = natToLeBytes 8 e.Timestamp ++ [e.Op % 256] ++
        natToLeBytes 4 e.Key.length ∨
      partialBytes = natToLeBytes 8 e.Timestamp ++ [e.Op % 256] ++
        natToLeBytes 4 e.Key.length ++ e.Key ∨
      (partialBytes = natToLeBytes 8 e.Timestamp ++ [e.Op % 256] ++
        natToLeBytes 4 e.Key.length ++ e.Key ++ natToLeBytes 4 e.Value.length ∧
        0 < e.Value.length)) :
    WAL.readEntry partialBytes = .error .eof := by
  obtain ⟨ts, op, key, value⟩ := e
  obtain ⟨h1, h2, h3, h4⟩ := hwf
  rcases hclean with rfl | rfl | rfl | rfl | rfl | ⟨rfl, hv⟩
  · exact readEntry_nil
  · simp only [WAL.readEntry,
      readBytes_all 8 (natToLeBytes 8 ts) (natToLeBytes_length 8 ts),
      readBytes_nil 1 (by norm_num)]
  · simp only [WAL.readEntry,
      readBytes_exact' 8 (natToLeBytes 8 ts) (natToLeBytes_length 8 ts),
      readBytes_all 1 [op % 256] rfl,
      readBytes_nil 4 (by norm_num)]
  · simp only [List.append_assoc, WAL.readEntry,
      readBytes_exact' 8 (natToLeBytes 8 ts) (natToLeBytes_length 8 ts),
      readBytes_exact' 1 [op % 256] rfl,
      readBytes_all 4 (natToLeBytes 4 key.length) (natToLeBytes_length 4 key.length),
      leBytesToNat_natToLeBytes 4 key.length h3]
    by_cases hk : key.length = 0
    · simp only [hk, readBytes_zero, readBytes_nil 4 (by norm_num)]
    · simp only [readBytes_nil key.length (Nat.pos_of_ne_zero hk)]
  · simp only [List.append_assoc, WAL.readEntry,
      readBytes_exact' 8 (natToLeBytes 8 ts) (natToLeBytes_length 8 ts),
      readBytes_exact' 1 [op % 256] rfl,
      readBytes_exact' 4 (natToLeBytes 4 key.length) (natToLeBytes_length 4 key.length),
      leBytesToNat_natToLeBytes 4 key.length h3,
      readBytes_all key.length key rfl,
      readBytes_nil 4 (by norm_num)]
  · simp only [List.append_assoc, WAL.readEntry,
      readBytes_exact' 8 (natToLeBytes 8 ts) (natToLeBytes_length 8 ts),
      readBytes_exact' 1 [op % 256] rfl,
      readBytes_exact' 4 (natToLeBytes 4 key.length) (natToLeBytes_length 4 key.length),
      leBytesToNat_natToLeBytes 4 key.length h3,
      readBytes_exact' key.length key rfl,
      readBytes_all 4 (natToLeBytes 4 value.length) (natToLeBytes_length 4 value.length),
      leBytesToNat_natToLeBytes 4 value.length h4,
      readBytes_nil value.length hv]

/-- C9 counterexample: a WAL file holding zero complete records followed by a
partial trailing record of four bytes (a truncated timestamp field, the
prefix of the record put(ts 0, op 1, empty key, empty value) would have
written) makes replay fail with io.ErrUnexpectedEOF instead of stopping
cleanly with the zero complete records. -/
theorem c9_counterexample_mid_field_truncation :
    [0, 0, 0, 0] = (walEncodeEntry ⟨0, 1, [], []⟩).take 4 ∧
      WAL.ReadAll [0, 0, 0, 0] = .error .unexpectedEof := by
  have hre : WAL.readEntry [0, 0, 0, 0] = .error .unexpectedEof := rfl
  refine ⟨rfl, ?_⟩
  rw [WAL.ReadAll.eq_1]
  split
  · rename_i heq
    rw [hre] at heq
    exact absurd heq (by simp)
  · rfl
  · rename_i e rest heq
    rw [hre] at heq
    exact absurd heq (by simp)

/-- C9 amended: replay of a WAL consisting of complete records followed by at
most one partial trailing record returns exactly the complete records in
append order and stops without error whenever the partial record breaks at a
field boundary (no partial bytes, or exactly the timestamp, the op byte, the
key-length field, the key bytes, or the value-length field of a record with
a non-empty value); a record truncated inside a fixed-width field or inside
the key or value bytes instead makes replay fail with io.ErrUnexpectedEOF
(see the counterexample). -/
theorem c9_replay_clean_at_field_boundaries (records : List Entry) (e : Entry)
    (partialBytes : List Nat) (hwf : ∀ r ∈ records, wellFormedEntry r)
    (hwfe : wellFormedEntry e)
    (hclean :
      partialBytes = [] ∨
      partialBytes = natToLeBytes 8 e.Timestamp ∨
      partialBytes = natToLeBytes 8 e.Timestamp ++ [e.Op % 256] ∨
      partialBytes = natToLeBytes 8 e.Timestamp ++ [e.Op % 256] ++
        natToLeBytes 4 e.Key.length ∨
      partialBytes = natToLeBytes 8 e.Timestamp ++ [e.Op % 256] ++
        natToLeBytes 4 e.Key.length ++ e.Key ∨
      (partialBytes = natToLeBytes 8 e.Timestamp ++ [e.Op % 256] ++
        natToLeBytes 4 e.Key.length ++ e.Key ++ natToLeBytes 4 e.Value.length ∧
        0 < e.Value.length)) :
    WAL.ReadAll ((records.map walEncodeEntry).flatten ++ partialBytes) = .ok records :=
  readAll_append records partialBytes hwf
    (readEntry_boundary_eof e partialBytes hwfe hclean)

/-- C9 witness: one complete put record followed by exactly the eight
timestamp bytes of a second record replays to the one complete record. -/
theorem c9_witness :
    WAL.ReadAll (([⟨1, 1, [10], [20]⟩].map walEncodeEntry).flatten ++ natToLeBytes 8 2)
      = .ok [⟨1, 1, [10], [20]⟩] :=
  c9_replay_clean_at_field_boundaries [⟨1, 1, [10], [20]⟩] ⟨2, 2, [7], [9]⟩
    (natToLeBytes 8 2) (by simp [wellFormedEntry]) (by simp [wellFormedEntry])
    (Or.inr (Or.inl rfl))

/-! ## Raft election core (raft/election.go, raft/raft_core.go) -/

/-- NodeState: Follower, Candidate, Leader. -/
inductive NodeState where
  | Follower
  | Candidate
  | Leader
  deriving Repr, DecidableEq

/-- A Raft log entry (index, term, serialized command). -/
structure LogEntry where
  index : Nat
  term : Nat
  command : List Nat
  deriving Repr, DecidableEq

/-- The per-node Raft state RequestVote manipulates: persistent currentTerm,
votedFor ("" meaning no vote, as in Go) and log, plus the volatile role.
NewRaftNode starts at term 0, no vote, the dummy log entry at index 0,
Follower. -/
structure RaftNode where
  currentTerm : Nat
  votedFor : String
  log : List LogEntry
  state : NodeState
  deriving Repr, DecidableEq

/-- The receiver's last log index, uint64(len(log) - 1). -/
def raftLastIndex (log : List LogEntry) : Nat :=
  log.length - 1

/-- The term of the receiver's last log entry (the log is never empty in a
constructed node: NewRaftNode installs a dummy entry at index 0). -/
def raftLastTerm (log : List LogEntry) : LogEntry :=
  log.getD (log.length - 1) ⟨0, 0, []⟩

/-- isLogUpToDate: on differing last terms the higher term wins; on equal
last terms the longer log wins. -/
def isLogUpToDate (log : List LogEntry) (candidateLastIndex candidateLastTerm : Nat) :
    Bool :=
  let lastIndex := raftLastIndex log
  let lastTerm := (raftLastTerm log).term
  if candidateLastTerm ≠ lastTerm then candidateLastTerm ≥ lastTerm
  else candidateLastIndex ≥ lastIndex

/-- RequestVote RPC request. -/
structure RequestVoteRequest where
  Term : Nat
  CandidateID : String
  LastLogIndex : Nat
  LastLogTerm : Nat
  deriving Repr, DecidableEq

/-- RequestVote RPC response. -/
structure RequestVoteResponse where
  Term : Nat
  VoteGranted : Bool
  deriving Repr, DecidableEq

/-- The step adopting a higher term: set currentTerm, clear the vote, become
follower. -/
def adoptTerm (rn : RaftNode) (req : RequestVoteRequest) : RaftNode :=
  if rn.currentTerm < req.Term then
    { rn with currentTerm := req.Term, votedFor := "", state := .Follower }
  else rn

/-- The RequestVote handler as a pure transition: returns the successor
state, the response, and whether the election timer was reset (which the
handler does exactly when it grants). -/
def RaftNode.RequestVote (rn : RaftNode) (req : RequestVoteRequest) :
    RaftNode × RequestVoteResponse × Bool :=
  if req.Term < rn.currentTerm then (rn, ⟨rn.currentTerm, false⟩, false)
  else if ((adoptTerm rn req).votedFor == "" ||
        (adoptTerm rn req).votedFor == req.CandidateID) &&
      isLogUpToDate (adoptTerm rn req).log req.LastLogIndex req.LastLogTerm then
    ({ adoptTerm rn req with votedFor := req.CandidateID },
      ⟨(adoptTerm rn req).currentTerm, true⟩, true)
  else (adoptTerm rn req, ⟨(adoptTerm rn req).currentTerm, false⟩, false)

theorem isLogUpToDate_iff (log : List LogEntry) (cIdx cTerm : Nat) :
    isLogUpToDate log cIdx cTerm = true ↔
      ((raftLastTerm log).term < cTerm ∨
        (cTerm = (raftLastTerm log).term ∧ raftLastIndex log ≤ cIdx)) := by
  unfold isLogUpToDate
  by_cases h : cTerm = (raftLastTerm log).term
  · rw [if_neg (by simp [h])]
    simp [h]
  · rw [if_pos (by simp [h])]
    simp only [ge_iff_le, decide_eq_true_eq]
    constructor
    · intro hle
      exact Or.inl (lt_of_le_of_ne hle (Ne.symm h))
    · intro hor
      rcases hor with hlt | ⟨heq, _⟩
      · omega
      · exact absurd heq h

theorem adoptTerm_log (rn : RaftNode) (req : RequestVoteRequest) :
    (adoptTerm rn req).log = rn.log := by
  unfold adoptTerm
  by_cases h : rn.currentTerm < req.Term
  · rw [if_pos h]
  · rw [if_neg h]

theorem adoptTerm_eq_self (rn : RaftNode) (req : RequestVoteRequest)
    (h : ¬rn.currentTerm < req.Term) : adoptTerm rn req = rn := by
  unfold adoptTerm
  rw [if_neg h]

theorem adoptTerm_currentTerm (rn : RaftNode) (req : RequestVoteRequest)
    (h : rn.currentTerm ≤ req.Term) : (adoptTerm rn req).currentTerm = req.Term := by
  unfold adoptTerm
  by_cases h2 : rn.currentTerm < req.Term
  · rw [if_pos h2]
  · rw [if_neg h2]
    omega

/-- C8: a node grants a RequestVote exactly when the request's term is not
below its current term, it has (after adopting any higher term) not yet voted
this term or already voted for this candidate, and the candidate's log is at
least as up to date (higher last-log term wins; on equal last-log term the
longer log wins); on granting it records the vote and resets its election
timer, and consequently it votes for at most one candidate per term. -/
theorem c8_request_vote (rn : RaftNode) (req : RequestVoteRequest)
    (hcand : req.CandidateID ≠ "") :
    ((rn.RequestVote req).2.1.VoteGranted = true ↔
      (rn.currentTerm ≤ req.Term ∧
        ((adoptTerm rn req).votedFor = "" ∨ (adoptTerm rn req).votedFor = req.CandidateID) ∧
        ((raftLastTerm rn.log).term < req.LastLogTerm ∨
          (req.LastLogTerm = (raftLastTerm rn.log).term ∧
            raftLastIndex rn.log ≤ req.LastLogIndex)))) ∧
    ((rn.RequestVote req).2.1.VoteGranted = true →
      (rn.RequestVote req).1.votedFor = req.CandidateID ∧
      (rn.RequestVote req).2.2 = true) ∧
    (∀ req2 : RequestVoteRequest,
      (rn.RequestVote req).2.1.VoteGranted = true →
      req2.Term = req.Term →
      (((rn.RequestVote req).1).RequestVote req2).2.1.VoteGranted = true →
      req2.CandidateID = req.CandidateID) := by
  unfold RaftNode.RequestVote
  by_cases h1 : req.Term < rn.currentTerm
  · rw [if_pos h1]
    refine ⟨⟨fun hc => absurd hc (by simp), fun hc => absurd hc.1 (by omega)⟩,
      fun hc => absurd hc (by simp), fun req2 hc => absurd hc (by simp)⟩
  · rw [if_neg h1]
    by_cases h2 : (((adoptTerm rn req).votedFor == "" ||
        (adoptTerm rn req).votedFor == req.CandidateID) &&
        isLogUpToDate (adoptTerm rn req).log req.LastLogIndex req.LastLogTerm) = true
    · rw [if_pos h2]
      rw [Bool.and_eq_true, Bool.or_eq_true, beq_iff_eq, beq_iff_eq] at h2
      obtain ⟨hvote, hlog⟩ := h2
      rw [adoptTerm_log] at hlog
      rw [isLogUpToDate_iff] at hlog
      refine ⟨⟨fun _ => ⟨by omega, hvote, hlog⟩, fun _ => rfl⟩, fun _ => ⟨rfl, rfl⟩, ?_⟩
      intro req2 hg1 hterm hg2
      have hterm2 : (adoptTerm rn req).currentTerm = req.Term :=
        adoptTerm_currentTerm rn req (by omega)
      set s1 : RaftNode := { adoptTerm rn req with votedFor := req.CandidateID } with hs1
      have hs1term : s1.currentTerm = req.Term := hterm2
      have hs1vote : s1.votedFor = req.CandidateID := rfl
      dsimp only at hg2
      rw [if_neg (show ¬req2.Term < s1.currentTerm by rw [hs1term]; omega)] at hg2
      rw [adoptTerm_eq_self s1 req2 (show ¬s1.currentTerm < req2.Term by
        rw [hs1term]; omega)] at hg2
      by_cases h3 : ((s1.votedFor == "" || s1.votedFor == req2.CandidateID) &&
          isLogUpToDate s1.log req2.LastLogIndex req2.LastLogTerm) = true
      · rw [Bool.and_eq_true, Bool.or_eq_true, beq_iff_eq, beq_iff_eq] at h3
        rcases h3.1 with hv | hv
        · rw [hs1vote] at hv
          exact absurd hv hcand
        · rw [hs1vote] at hv
          exact hv.symm
      · rw [if_neg h3] at hg2
        dsimp only at hg2
        exact absurd hg2 (by simp)
    · rw [if_neg h2]
      refine ⟨⟨fun hc => absurd hc (by simp), ?_⟩,
        fun hc => absurd hc (by simp), fun req2 hc => absurd hc (by simp)⟩
      intro ⟨hle, hvote, hlog⟩
      exfalso
      apply h2
      rw [Bool.and_eq_true, Bool.or_eq_true, beq_iff_eq, beq_iff_eq]
      refine ⟨hvote, ?_⟩
      rw [adoptTerm_log, isLogUpToDate_iff]
      exact hlog

/-- C8 witness: a follower at term 5 with last log entry (index 1, term 5)
and no vote yet grants a vote to candidate "A" at term 6 with an equally
up-to-date log. -/
theorem c8_witness :
    (RaftNode.RequestVote ⟨5, "", [⟨0, 0, []⟩, ⟨1, 5, []⟩], NodeState.Follower⟩
      ⟨6, "A", 1, 5⟩).2.1.VoteGranted = true :=
  ((c8_request_vote ⟨5, "", [⟨0, 0, []⟩, ⟨1, 5, []⟩], NodeState.Follower⟩
    ⟨6, "A", 1, 5⟩ (by decide)).1).mpr (by decide)

/-! ## MD5 (crypto/md5, used by the hash ring via hashKey) -/

/-- The 64 MD5 sine-derived constants K[i] = floor(abs(sin(i+1)) * 2^32). -/
def md5K : List Nat :=
  [0xd76aa478, 0xe8c7b756, 0x242070db, 0xc1bdceee,
   0xf57c0faf, 0x4787c62a, 0xa8304613, 0xfd469501,
   0x698098d8, 0x8b44f7af, 0xffff5bb1, 0x895cd7be,
   0x6b901122, 0xfd987193, 0xa679438e, 0x49b40821,
   0xf61e2562, 0xc040b340, 0x265e5a51, 0xe9b6c7aa,
   0xd62f105d, 0x02441453, 0xd8a1e681, 0xe7d3fbc8,
   0x21e1cde6, 0xc33707d6, 0xf4d50d87, 0x455a14ed,
   0xa9e3e905, 0xfcefa3f8, 0x676f02d9, 0x8d2a4c8a,
   0xfffa3942, 0x8771f681, 0x6d9d6122, 0xfde5380c,
   0xa4beea44, 0x4bdecfa9, 0xf6bb4b60, 0xbebfbc70,
   0x289b7ec6, 0xeaa127fa, 0xd4ef3085, 0x04881d05,
   0xd9d4d039, 0xe6db99e5, 0x1fa27cf8, 0xc4ac5665,
   0xf4292244, 0x432aff97, 0xab9423a7, 0xfc93a039,
   0x655b59c3, 0x8f0ccc92, 0xffeff47d, 0x85845dd1,
   0x6fa87e4f, 0xfe2ce6e0, 0xa3014314, 0x4e0811a1,
   0xf7537e82, 0xbd3af235, 0x2ad7d2bb, 0xeb86d391]

/-- The 64 per-round left-rotation amounts. -/
def md5S : List Nat :=
  [7, 12, 17, 22, 7, 12, 17, 22, 7, 12, 17, 22, 7, 12, 17, 22,
   5, 9, 14, 20, 5, 9, 14, 20, 5, 9, 14, 20, 5, 9, 14, 20,
   4, 11, 16, 23, 4, 11, 16, 23, 4, 11, 16, 23, 4, 11, 16, 23,
   6, 10, 15, 21, 6, 10, 15, 21, 6, 10, 15, 21, 6, 10, 15, 21]

/-- Truncation to 32 bits. -/
def u32 (x : Nat) : Nat := x % 4294967296

/-- Bitwise complement on 32 bits (for x < 2^32). -/
def not32 (x : Nat) : Nat := 4294967295 ^^^ x

/-- 32-bit left rotation (for x < 2^32). -/
def rotl32 (x s : Nat) : Nat := u32 ((x <<< s) ||| (x >>> (32 - s)))

/-- The round function of round i on registers b, c, d. -/
def md5F (i b c d : Nat) : Nat :=
  if i < 16 then (b &&& c) ||| (not32 b &&& d)
  else if i < 32 then (d &&& b) ||| (not32 d &&& c)
  else if i < 48 then b ^^^ c ^^^ d
  else c ^^^ (b ||| not32 d)

/-- The message-word index schedule of round i. -/
def md5G (i : Nat) : Nat :=
  if i < 16 then i
  else if i < 32 then (5 * i + 1) % 16
  else if i < 48 then (3 * i + 5) % 16
  else (7 * i) % 16

/-- The 16 little-endian 32-bit words of one 64-byte block. -/
def md5Words (block : List Nat) : List Nat :=
  (List.range 16).map fun i => leBytesToNat ((block.drop (4 * i)).take 4)

/-- One of the 64 rounds: rotate the mixed value into register b and cycle
the registers. -/
def md5Step (M : List Nat) (st : Nat × Nat × Nat × Nat) (i : Nat) :
    Nat × Nat × Nat × Nat :=
  let (a, b, c, d) := st
  let mixed := u32 (a + md5F i b c d + md5K.getD i 0 + M.getD (md5G i) 0)
  (d, u32 (b + rotl32 mixed (md5S.getD i 0)), b, c)

/-- One 64-byte block: 64 rounds, then add the block result into the state. -/
def md5Block (h : Nat × Nat × Nat × Nat) (block : List Nat) : Nat × Nat × Nat × Nat :=
  let M := md5Words block
  let (a, b, c, d) := (List.range 64).foldl (md5Step M) h
  (u32 (h.1 + a), u32 (h.2.1 + b), u32 (h.2.2.1 + c), u32 (h.2.2.2 + d))

/-- MD5 padding: 0x80, zero bytes to 56 mod 64, the bit length on 8
little-endian bytes. -/
def md5Pad (msg : List Nat) : List Nat :=
  msg ++ [128] ++ List.replicate ((119 - msg.length % 64) % 64) 0 ++
    natToLeBytes 8 (msg.length * 8)

/-- Split a padded message into its 64-byte blocks; the count argument is
the number of blocks, padded.length / 64. -/
def md5Chunks : Nat → List Nat → List (List Nat)
  | 0, _ => []
  | n + 1, s => s.take 64 :: md5Chunks n (s.drop 64)

/-- The 16-byte MD5 digest: fold the compression function over the blocks
from the standard initial state and serialize the four state words
little-endian. -/
def md5Digest (msg : List Nat) : List Nat :=
  let padded := md5Pad msg
  let st := (md5Chunks (padded.length / 64) padded).foldl md5Block
    (0x67452301, 0xefcdab89, 0x98badcfe, 0x10325476)
  natToLeBytes 4 st.1 ++ natToLeBytes 4 st.2.1 ++ natToLeBytes 4 st.2.2.1 ++
    natToLeBytes 4 st.2.2.2

/-- Big-endian 32-bit assembly (binary.BigEndian.Uint32). -/
def beBytesToNat (bs : List Nat) : Nat :=
  bs.foldl (fun acc b => acc * 256 + b) 0

/-- hashKey of hash_ring.go: the big-endian 32-bit value of the first four
MD5 digest bytes of the key. -/
def hashKeyMD5 (key : List Nat) : Nat :=
  beBytesToNat ((md5Digest key).take 4)

/-! ## Consistent hash ring (cluster/hash_ring.go)

Node identifiers and keys are byte strings (List Nat).  The Go map
`ring : map[uint32]string` is an association list with insert-replace
semantics; a missing key reads as the zero value "" (the empty byte
string).  The Go set `nodes : map[string]bool` is the list of members in
insertion order.  sort.Slice is modeled by insertion sort: its result,
the ascending reordering, is uniquely determined by the multiset. -/

/-- The bytes of the literal "-vnode-". -/
def vnodeSep : List Nat := [45, 118, 110, 111, 100, 101, 45]

/-- ASCII decimal digits of a number (fmt %d). -/
def decimalBytes (n : Nat) : List Nat := (Nat.toDigits 10 n).map Char.toNat

/-- The virtual-node key fmt.Sprintf of "%s-vnode-%d". -/
def vnodeKey (nodeID : List Nat) (i : Nat) : List Nat :=
  nodeID ++ vnodeSep ++ decimalBytes i

/-- Map insert with replace (hr.ring[hash] = nodeID). -/
def ringInsert (r : List (Nat × List Nat)) (h : Nat) (v : List Nat) :
    List (Nat × List Nat) :=
  match r with
  | [] => [(h, v)]
  | e :: t => if e.1 = h then (h, v) :: t else e :: ringInsert t h v

/-- Map lookup. -/
def ringLookup (r : List (Nat × List Nat)) (h : Nat) : Option (List Nat) :=
  match r with
  | [] => none
  | e :: t => if e.1 = h then some e.2 else ringLookup t h

/-- Go map read with zero value: a missing position reads as "". -/
def ringLookupD (r : List (Nat × List Nat)) (h : Nat) : List Nat :=
  (ringLookup r h).getD []

/-- Map delete (delete of hr.ring at hash). -/
def ringErase (r : List (Nat × List Nat)) (h : Nat) : List (Nat × List Nat) :=
  r.filter fun e => !(e.1 == h)

structure HashRing where
  virtualNodes : Nat
  ring : List (Nat × List Nat)
  sortedHashes : List Nat
  nodes : List (List Nat)
deriving DecidableEq

/-- NewHashRing; a nonpositive count falls back to DefaultVirtualNodes = 256. -/
def NewHashRing (virtualNodes : Nat) : HashRing :=
  ⟨if virtualNodes = 0 then 256 else virtualNodes, [], [], []⟩

/-- The hashes of the virtual nodes of one physical node. -/
def vnodeHashes (virtualNodes : Nat) (nodeID : List Nat) : List Nat :=
  (List.range virtualNodes).map fun i => hashKeyMD5 (vnodeKey nodeID i)

/-- HashRing.AddNode: register the node, insert every virtual node into the
ring map, append its hashes and re-sort sortedHashes. -/
def HashRing.AddNode (hr : HashRing) (nodeID : List Nat) : HashRing :=
  if nodeID ∈ hr.nodes then hr
  else
    ⟨hr.virtualNodes,
     (vnodeHashes hr.virtualNodes nodeID).foldl (fun r h => ringInsert r h nodeID)
       hr.ring,
     List.insertionSort (fun a b => a ≤ b)
       (hr.sortedHashes ++ vnodeHashes hr.virtualNodes nodeID),
     hr.nodes ++ [nodeID]⟩

/-- The RemoveNode sweep over sortedHashes: a position whose current ring
entry is not the removed node is kept, otherwise the position is deleted
from the ring map; returns (new sortedHashes, new ring). -/
def removeLoop (nodeID : List Nat) : List Nat → List (Nat × List Nat) →
    List Nat × List (Nat × List Nat)
  | [], r => ([], r)
  | h :: t, r =>
    if ringLookupD r h ≠ nodeID then
      (h :: (removeLoop nodeID t r).1, (removeLoop nodeID t r).2)
    else
      removeLoop nodeID t (ringErase r h)

/-- HashRing.RemoveNode. -/
def HashRing.RemoveNode (hr : HashRing) (nodeID : List Nat) : HashRing :=
  if nodeID ∈ hr.nodes then
    ⟨hr.virtualNodes,
     (removeLoop nodeID hr.sortedHashes hr.ring).2,
     (removeLoop nodeID hr.sortedHashes hr.ring).1,
     hr.nodes.erase nodeID⟩
  else hr

/-- sort.Search for the first position at or after the key hash, wrapping
to 0 past the end; on the sorted position array this is the first index
satisfying the predicate. -/
def ringSearchIdx (sortedHashes : List Nat) (h : Nat) : Nat :=
  if sortedHashes.length ≤ sortedHashes.findIdx (fun x => h ≤ x) then 0
  else sortedHashes.findIdx fun x => h ≤ x

/-- The clockwise collection loop of GetPreferenceList.  The Go loop
tracks a seen set alongside result, but every append goes to both, so
len(seen) = len(result) throughout and membership in result models seen.
The Go loop is unbounded; fuel bounds the modeled iteration count, and the
loop's result is the model's value at any fuel large enough that the guard
fails before exhaustion. -/
def prefLoop (hr : HashRing) (n : Nat) : Nat → Nat → List (List Nat) → List (List Nat)
  | 0, _, result => result
  | fuel + 1, idx, result =>
    if result.length < n ∧ result.length < hr.nodes.length then
      prefLoop hr n fuel ((idx + 1) % hr.sortedHashes.length)
        (if ringLookupD hr.ring (hr.sortedHashes.getD idx 0) ∈ result then result
         else result ++ [ringLookupD hr.ring (hr.sortedHashes.getD idx 0)])
    else result

/-- HashRing.GetPreferenceList: error when the ring is empty, otherwise
clamp n to the node count and walk clockwise from the key's position. -/
def HashRing.GetPreferenceList (hr : HashRing) (key : List Nat) (n fuel : Nat) :
    Option (List (List Nat)) :=
  if hr.sortedHashes.length = 0 then none
  else
    some (prefLoop hr (if hr.nodes.length < n then hr.nodes.length else n) fuel
      (ringSearchIdx hr.sortedHashes (hashKeyMD5 key)) [])

/-! ### Ring map lemmas -/

theorem ringLookup_erase_ne (r : List (Nat × List Nat)) (h hDel : Nat)
    (hne : h ≠ hDel) : ringLookup (ringErase r hDel) h = ringLookup r h := by
  induction r with
  | nil => rfl
  | cons e t ih =>
    unfold ringErase at ih ⊢
    rw [List.filter_cons]
    by_cases he : e.1 = hDel
    · rw [if_neg (by simp [he]), ih]
      have hne2 : e.1 ≠ h := fun q => hne (q ▸ he)
      simp [ringLookup, hne2]
    · rw [if_pos (by simp [he])]
      by_cases heh : e.1 = h
      · simp [ringLookup, heh]
      · simp [ringLookup, heh, ih]

theorem ringLookup_append_left {r1 : List (Nat × List Nat)} {h : Nat}
    {v : List Nat} (r2 : List (Nat × List Nat)) (hl : ringLookup r1 h = some v) :
    ringLookup (r1 ++ r2) h = some v := by
  induction r1 with
  | nil => exact absurd hl (by simp [ringLookup])
  | cons e t ih =>
    rw [List.cons_append]
    by_cases he : e.1 = h
    · simp only [ringLookup, if_pos he] at hl ⊢; exact hl
    · simp only [ringLookup, if_neg he] at hl ⊢; exact ih hl

theorem ringLookup_append_right {r1 : List (Nat × List Nat)} {h : Nat}
    (r2 : List (Nat × List Nat)) (hl : ringLookup r1 h = none) :
    ringLookup (r1 ++ r2) h = ringLookup r2 h := by
  induction r1 with
  | nil => rfl
  | cons e t ih =>
    rw [List.cons_append]
    by_cases he : e.1 = h
    · simp only [ringLookup, if_pos he] at hl; exact absurd hl (by simp)
    · simp only [ringLookup, if_neg he] at hl ⊢; exact ih hl

theorem ringLookup_of_key_mem (r : List (Nat × List Nat)) (h : Nat)
    (hk : h ∈ r.map Prod.fst) :
    ∃ v, ringLookup r h = some v ∧ (h, v) ∈ r := by
  induction r with
  | nil => simp at hk
  | cons e t ih =>
    by_cases he : e.1 = h
    · refine ⟨e.2, by simp [ringLookup, he], ?_⟩
      have : (h, e.2) = e := by rw [← he]
      rw [this]; exact List.mem_cons_self e t
    · have hm : h ∈ t.map Prod.fst := by
        rw [List.map_cons, List.mem_cons] at hk
        rcases hk with h1 | h2
        · exact absurd h1.symm he
        · exact h2
      obtain ⟨v, hv1, hv2⟩ := ih hm
      exact ⟨v, by simp [ringLookup, he, hv1], List.mem_cons_of_mem _ hv2⟩

theorem ringLookup_none_of_not_key (r : List (Nat × List Nat)) (h : Nat)
    (hk : h ∉ r.map Prod.fst) : ringLookup r h = none := by
  induction r with
  | nil => rfl
  | cons e t ih =>
    simp only [List.map_cons, List.mem_cons] at hk
    push_neg at hk
    rw [show ringLookup (e :: t) h =
      if e.1 = h then some e.2 else ringLookup t h from rfl]
    rw [if_neg (Ne.symm hk.1)]
    exact ih hk.2

theorem ringLookup_map_self (A : List Nat) (nodeID : List Nat) (a : Nat)
    (ha : a ∈ A) :
    ringLookup (A.map fun x => (x, nodeID)) a = some nodeID := by
  induction A with
  | nil => simp at ha
  | cons b t ih =>
    by_cases hb : b = a
    · simp [ringLookup, hb]
    · rcases List.mem_cons.mp ha with h1 | h2
      · exact absurd h1.symm hb
      · simp [ringLookup, hb, ih h2]

theorem ringInsert_of_not_key (r : List (Nat × List Nat)) (h : Nat)
    (v : List Nat) (hk : h ∉ r.map Prod.fst) :
    ringInsert r h v = r ++ [(h, v)] := by
  induction r with
  | nil => rfl
  | cons e t ih =>
    simp only [List.map_cons, List.mem_cons] at hk
    push_neg at hk
    rw [show ringInsert (e :: t) h v =
      if e.1 = h then (h, v) :: t else e :: ringInsert t h v from rfl]
    rw [if_neg (Ne.symm hk.1), ih hk.2, List.cons_append]

theorem foldl_ringInsert_append (nodeID : List Nat) (A : List Nat) :
    ∀ r : List (Nat × List Nat), A.Nodup → (∀ a ∈ A, a ∉ r.map Prod.fst) →
    A.foldl (fun acc h => ringInsert acc h nodeID) r =
      r ++ A.map fun a => (a, nodeID) := by
  induction A with
  | nil => intro r _ _; simp
  | cons a t ih =>
    intro r hnd hk
    rw [List.nodup_cons] at hnd
    have hfresh : ∀ x ∈ t, x ∉ (r ++ [(a, nodeID)]).map Prod.fst := by
      intro x hx
      rw [List.map_append, List.mem_append]
      push_neg
      refine ⟨hk x (List.mem_cons_of_mem _ hx), ?_⟩
      simp only [List.map_cons, List.map_nil, List.mem_singleton]
      exact fun q => hnd.1 (q ▸ hx)
    rw [List.foldl_cons,
      ringInsert_of_not_key r a nodeID (hk a (List.mem_cons_self a t)),
      ih (r ++ [(a, nodeID)]) hnd.2 hfresh, List.append_assoc]
    rfl

theorem foldl_ringErase_eq_filter (ks : List Nat) :
    ∀ r : List (Nat × List Nat),
      ks.foldl ringErase r = r.filter fun e => !(decide (e.1 ∈ ks)) := by
  induction ks with
  | nil =>
    intro r
    rw [List.foldl_nil]
    exact (List.filter_eq_self.mpr (fun a _ => by simp)).symm
  | cons k t ih =>
    intro r
    rw [List.foldl_cons, ih (ringErase r k)]
    unfold ringErase
    rw [List.filter_filter]
    apply List.filter_congr
    intro e _
    by_cases h1 : e.1 = k <;> by_cases h2 : e.1 ∈ t <;> simp [h1, h2]

theorem removeLoop_eq (nodeID : List Nat) (hs : List Nat) :
    ∀ r, hs.Nodup →
    removeLoop nodeID hs r =
      (hs.filter fun h => !(ringLookupD r h == nodeID),
       (hs.filter fun h => ringLookupD r h == nodeID).foldl ringErase r) := by
  induction hs with
  | nil => intro r _; rfl
  | cons h t ih =>
    intro r hnd
    rw [List.nodup_cons] at hnd
    by_cases hc : ringLookupD r h = nodeID
    · rw [show removeLoop nodeID (h :: t) r =
        if ringLookupD r h ≠ nodeID then
          (h :: (removeLoop nodeID t r).1, (removeLoop nodeID t r).2)
        else removeLoop nodeID t (ringErase r h) from rfl]
      rw [if_neg (not_not_intro hc), ih (ringErase r h) hnd.2]
      have hlk : ∀ x ∈ t, ringLookupD (ringErase r h) x = ringLookupD r x := by
        intro x hx
        have hxh : x ≠ h := fun he => hnd.1 (he ▸ hx)
        unfold ringLookupD
        rw [ringLookup_erase_ne r x h hxh]
      have h1 : (t.filter fun x => !(ringLookupD (ringErase r h) x == nodeID)) =
          t.filter fun x => !(ringLookupD r x == nodeID) :=
        List.filter_congr fun x hx => by rw [hlk x hx]
      have h2 : (t.filter fun x => ringLookupD (ringErase r h) x == nodeID) =
          t.filter fun x => ringLookupD r x == nodeID :=
        List.filter_congr fun x hx => by rw [hlk x hx]
      rw [h1, h2]
      have hp1 : ((h :: t).filter fun x => !(ringLookupD r x == nodeID)) =
          t.filter fun x => !(ringLookupD r x == nodeID) := by
        simp [List.filter_cons, hc]
      have hp2 : ((h :: t).filter fun x => ringLookupD r x == nodeID) =
          h :: (t.filter fun x => ringLookupD r x == nodeID) := by
        simp [List.filter_cons, hc]
      rw [hp1, hp2, List.foldl_cons]
    · rw [show removeLoop nodeID (h :: t) r =
        if ringLookupD r h ≠ nodeID then
          (h :: (removeLoop nodeID t r).1, (removeLoop nodeID t r).2)
        else removeLoop nodeID t (ringErase r h) from rfl]
      rw [if_pos hc, ih r hnd.2]
      have hp1 : ((h :: t).filter fun x => !(ringLookupD r x == nodeID)) =
          h :: (t.filter fun x => !(ringLookupD r x == nodeID)) := by
        simp [List.filter_cons, hc]
      have hp2 : ((h :: t).filter fun x => ringLookupD r x == nodeID) =
          t.filter fun x => ringLookupD r x == nodeID := by
        simp [List.filter_cons, hc]
      rw [hp1, hp2]

/-- Core of add-then-remove restoration: the RemoveNode sweep over the
re-sorted hash array, run against the ring with the fresh virtual nodes
inserted, returns exactly the old hash array and the old ring, provided
the fresh hashes are distinct and disjoint from the existing positions. -/
theorem addRemove_core (nodeID : List Nat) (O A : List Nat)
    (R0 : List (Nat × List Nat)) (nodes0 : List (List Nat))
    (hnot : nodeID ∉ nodes0)
    (hsorted : List.Sorted (fun a b : Nat => a ≤ b) O)
    (hnd : O.Nodup) (hAnd : A.Nodup)
    (hkeysub : ∀ h ∈ R0.map Prod.fst, h ∈ O)
    (hkeysup : ∀ h ∈ O, h ∈ R0.map Prod.fst)
    (hvals : ∀ e ∈ R0, e.2 ∈ nodes0)
    (hdisj : ∀ a ∈ A, a ∉ O) :
    removeLoop nodeID (List.insertionSort (fun a b => a ≤ b) (O ++ A))
      (R0 ++ A.map fun a => (a, nodeID)) = (O, R0) := by
  have hperm : (List.insertionSort (fun a b : Nat => a ≤ b) (O ++ A)).Perm (O ++ A) :=
    List.perm_insertionSort _ _
  have hndOA : (O ++ A).Nodup := by
    rw [List.nodup_append]
    refine ⟨hnd, hAnd, ?_⟩
    intro a haO haA
    exact hdisj a haA haO
  have hs'nodup : (List.insertionSort (fun a b : Nat => a ≤ b) (O ++ A)).Nodup :=
    hperm.symm.nodup hndOA
  have hlkA : ∀ a ∈ A, ringLookupD (R0 ++ A.map fun a => (a, nodeID)) a = nodeID := by
    intro a ha
    unfold ringLookupD
    rw [ringLookup_append_right _ (ringLookup_none_of_not_key R0 a
        fun q => hdisj a ha (hkeysub a q)),
      ringLookup_map_self A nodeID a ha]
    rfl
  have hlkO : ∀ h ∈ O, ∃ v, ringLookupD (R0 ++ A.map fun a => (a, nodeID)) h = v ∧
      v ∈ nodes0 := by
    intro h hh
    obtain ⟨v, hv1, hv2⟩ := ringLookup_of_key_mem R0 h (hkeysup h hh)
    refine ⟨v, ?_, hvals _ hv2⟩
    unfold ringLookupD
    rw [ringLookup_append_left _ hv1]
    rfl
  have hpO : ∀ h ∈ O,
      (ringLookupD (R0 ++ A.map fun a => (a, nodeID)) h == nodeID) = false := by
    intro h hh
    obtain ⟨v, hv1, hv2⟩ := hlkO h hh
    rw [hv1, beq_eq_false_iff_ne]
    exact fun q => hnot (q ▸ hv2)
  rw [removeLoop_eq nodeID _ _ hs'nodup]
  have hfil1 : ((List.insertionSort (fun a b => a ≤ b) (O ++ A)).filter
      fun h => !(ringLookupD (R0 ++ A.map fun a => (a, nodeID)) h == nodeID)) = O := by
    have hOA : (O ++ A).filter
        (fun h => !(ringLookupD (R0 ++ A.map fun a => (a, nodeID)) h == nodeID)) = O := by
      rw [List.filter_append,
        List.filter_eq_self.mpr (fun h hh => by simp [hpO h hh]),
        List.filter_eq_nil_iff.mpr (fun a ha => by simp [hlkA a ha]),
        List.append_nil]
    have hpf := hperm.filter
      (fun h => !(ringLookupD (R0 ++ A.map fun a => (a, nodeID)) h == nodeID))
    rw [hOA] at hpf
    exact List.eq_of_perm_of_sorted hpf
      (List.Pairwise.filter _ (List.sorted_insertionSort _ _)) hsorted
  have hfil2 : (((List.insertionSort (fun a b => a ≤ b) (O ++ A)).filter
      fun h => ringLookupD (R0 ++ A.map fun a => (a, nodeID)) h == nodeID).foldl
        ringErase (R0 ++ A.map fun a => (a, nodeID))) = R0 := by
    rw [foldl_ringErase_eq_filter, List.filter_append]
    have hq0 : R0.filter (fun e => !(decide (e.1 ∈
        (List.insertionSort (fun a b => a ≤ b) (O ++ A)).filter
          fun h => ringLookupD (R0 ++ A.map fun a => (a, nodeID)) h == nodeID))) = R0 := by
      apply List.filter_eq_self.mpr
      intro e he
      have hkey : e.1 ∈ R0.map Prod.fst := List.mem_map_of_mem Prod.fst he
      obtain ⟨v, hv1, hv2⟩ := ringLookup_of_key_mem R0 e.1 hkey
      have hlk : ringLookupD (R0 ++ A.map fun a => (a, nodeID)) e.1 = v := by
        unfold ringLookupD
        rw [ringLookup_append_left _ hv1]
        rfl
      have hne2 : ringLookupD (R0 ++ A.map fun a => (a, nodeID)) e.1 ≠ nodeID := by
        rw [hlk]
        exact fun q => hnot (q ▸ hvals _ hv2)
      have hnotin : e.1 ∉ (List.insertionSort (fun a b => a ≤ b) (O ++ A)).filter
          (fun h => ringLookupD (R0 ++ A.map fun a => (a, nodeID)) h == nodeID) := by
        intro hin
        exact hne2 (by simpa using (List.mem_filter.mp hin).2)
      simp [hnotin]
    have hq1 : ((A.map fun a => (a, nodeID)).filter (fun e => !(decide (e.1 ∈
        (List.insertionSort (fun a b => a ≤ b) (O ++ A)).filter
          fun h => ringLookupD (R0 ++ A.map fun a => (a, nodeID)) h == nodeID)))) = [] := by
      apply List.filter_eq_nil_iff.mpr
      intro e he
      obtain ⟨a, ha, rfl⟩ := List.mem_map.mp he
      have hin : a ∈ (List.insertionSort (fun a b => a ≤ b) (O ++ A)).filter
          (fun h => ringLookupD (R0 ++ A.map fun a => (a, nodeID)) h == nodeID) :=
        List.mem_filter.mpr ⟨hperm.mem_iff.mpr (List.mem_append_right _ ha),
          by simp [hlkA a ha]⟩
      simp [hin]
    rw [hq0, hq1, List.append_nil]
  rw [hfil1, hfil2]

/-- C6: adding a fresh node and then removing it restores the ring, under
the no-collision side conditions: the ring state is consistent (positions
sorted and duplicate-free, position array and ring map carry the same
keys, ring values are member nodes) and the fresh node's virtual-node
hashes are pairwise distinct and hit no existing position. -/
theorem c6_add_remove_restores (hr : HashRing) (nodeID : List Nat)
    (hnot : nodeID ∉ hr.nodes)
    (hsorted : List.Sorted (fun a b : Nat => a ≤ b) hr.sortedHashes)
    (hnd : hr.sortedHashes.Nodup)
    (hkeysub : ∀ h ∈ hr.ring.map Prod.fst, h ∈ hr.sortedHashes)
    (hkeysup : ∀ h ∈ hr.sortedHashes, h ∈ hr.ring.map Prod.fst)
    (hvals : ∀ e ∈ hr.ring, e.2 ∈ hr.nodes)
    (hAnd : (vnodeHashes hr.virtualNodes nodeID).Nodup)
    (hdisj : ∀ a ∈ vnodeHashes hr.virtualNodes nodeID, a ∉ hr.sortedHashes) :
    (hr.AddNode nodeID).RemoveNode nodeID = hr := by
  have hadd : hr.AddNode nodeID = ⟨hr.virtualNodes,
      hr.ring ++ (vnodeHashes hr.virtualNodes nodeID).map fun a => (a, nodeID),
      List.insertionSort (fun a b => a ≤ b)
        (hr.sortedHashes ++ vnodeHashes hr.virtualNodes nodeID),
      hr.nodes ++ [nodeID]⟩ := by
    unfold HashRing.AddNode
    rw [if_neg hnot]
    rw [foldl_ringInsert_append nodeID _ hr.ring hAnd
      (fun a ha q => hdisj a ha (hkeysub a q))]
  rw [hadd]
  unfold HashRing.RemoveNode
  dsimp only
  rw [if_pos (List.mem_append_right _ (List.mem_singleton_self nodeID))]
  rw [addRemove_core nodeID hr.sortedHashes (vnodeHashes hr.virtualNodes nodeID)
    hr.ring hr.nodes hnot hsorted hnd hAnd hkeysub hkeysup hvals hdisj]
  rw [List.erase_append_right _ hnot, List.erase_cons_head, List.append_nil]

/-- Byte string "n11503": its first virtual-node key collides with
nodeY's on the 32-bit MD5 prefix used by hashKey. -/
def nodeX : List Nat := [110, 49, 49, 53, 48, 51]

/-- Byte string "n105607". -/
def nodeY : List Nat := [110, 49, 48, 53, 54, 48, 55]

/-- C6 counterexample: the two distinct node identifiers "n11503" and
"n105607" have colliding first-virtual-node positions (their 32-bit MD5
prefixes are both 2409332380); on a ring with one virtual node per node
holding "n11503", adding "n105607" and then removing it does not restore
the prior state: the shared position is deleted from the ring map and a
stale entry remains in the sorted hash array. -/
theorem c6_counterexample_md5_collision :
    hashKeyMD5 (vnodeKey nodeX 0) = hashKeyMD5 (vnodeKey nodeY 0) ∧
    (((NewHashRing 1).AddNode nodeX).AddNode nodeY).RemoveNode nodeY ≠
      (NewHashRing 1).AddNode nodeX := by decide

theorem c6_witness :
    (((NewHashRing 1).AddNode [97]).AddNode [98]).RemoveNode [98] =
      (NewHashRing 1).AddNode [97] :=
  c6_add_remove_restores ((NewHashRing 1).AddNode [97]) [98]
    (by decide)
    (by rw [show ((NewHashRing 1).AddNode [97]).sortedHashes =
          [hashKeyMD5 (vnodeKey [97] 0)] from by decide]
        exact List.sorted_singleton _)
    (by decide) (by decide) (by decide) (by decide) (by decide) (by decide)

/-! ### Preference list lemmas -/

theorem ringSearchIdx_lt (s : List Nat) (h : Nat) (hs : s ≠ []) :
    ringSearchIdx s h < s.length := by
  unfold ringSearchIdx
  split
  · exact List.length_pos.mpr hs
  · omega

/-- Invariant run of the collection loop: starting inside the position
array with a duplicate-free partial result drawn from the member nodes,
if every still-missing node is reachable at some position visited within
the remaining fuel, the loop ends with exactly n2 distinct member
nodes. -/
theorem prefLoop_spec (hr : HashRing) (n2 : Nat) (hle : n2 ≤ hr.nodes.length)
    (hnodesnd : hr.nodes.Nodup)
    (hvalues : ∀ h ∈ hr.sortedHashes, ringLookupD hr.ring h ∈ hr.nodes) :
    ∀ fuel idx result,
      idx < hr.sortedHashes.length →
      result.Nodup → (∀ x ∈ result, x ∈ hr.nodes) → result.length ≤ n2 →
      (∀ nd ∈ hr.nodes, nd ∉ result →
        ∃ j, j < fuel ∧ ringLookupD hr.ring
          (hr.sortedHashes.getD ((idx + j) % hr.sortedHashes.length) 0) = nd) →
      (prefLoop hr n2 fuel idx result).Nodup ∧
      (∀ x ∈ prefLoop hr n2 fuel idx result, x ∈ hr.nodes) ∧
      (prefLoop hr n2 fuel idx result).length = n2 := by
  intro fuel
  induction fuel with
  | zero =>
    intro idx result _ hrnd hrsub hrlen hH
    simp only [prefLoop]
    have hall : ∀ nd ∈ hr.nodes, nd ∈ result := by
      intro nd hnd2
      by_contra hmem
      obtain ⟨j, hj, _⟩ := hH nd hnd2 hmem
      omega
    have hlen : hr.nodes.length ≤ result.length :=
      (hnodesnd.subperm hall).length_le
    exact ⟨hrnd, hrsub, by omega⟩
  | succ fuel ih =>
    intro idx result hidx hrnd hrsub hrlen hH
    simp only [prefLoop]
    by_cases hcond : result.length < n2 ∧ result.length < hr.nodes.length
    · rw [if_pos hcond]
      have hvmem : ringLookupD hr.ring (hr.sortedHashes.getD idx 0) ∈ hr.nodes := by
        apply hvalues
        rw [List.getD_eq_getElem _ _ hidx]
        exact List.getElem_mem _
      have hlenpos : 0 < hr.sortedHashes.length := by omega
      have hidx2 : (idx + 1) % hr.sortedHashes.length < hr.sortedHashes.length :=
        Nat.mod_lt _ hlenpos
      by_cases hmem : ringLookupD hr.ring (hr.sortedHashes.getD idx 0) ∈ result
      · rw [if_pos hmem]
        refine ih _ _ hidx2 hrnd hrsub hrlen ?_
        intro nd hnd2 hmem2
        obtain ⟨j, hj, hjeq⟩ := hH nd hnd2 hmem2
        cases j with
        | zero =>
          exfalso
          rw [Nat.add_zero, Nat.mod_eq_of_lt hidx] at hjeq
          exact hmem2 (hjeq ▸ hmem)
        | succ j2 =>
          refine ⟨j2, by omega, ?_⟩
          rw [Nat.mod_add_mod, show idx + 1 + j2 = idx + (j2 + 1) by omega]
          exact hjeq
      · rw [if_neg hmem]
        refine ih _ _ hidx2 ?_ ?_ ?_ ?_
        · rw [List.nodup_append]
          refine ⟨hrnd, List.nodup_singleton _, ?_⟩
          intro a ha hav
          rw [List.mem_singleton] at hav
          exact hmem (hav ▸ ha)
        · intro x hx
          rcases List.mem_append.mp hx with h1 | h2
          · exact hrsub x h1
          · rw [List.mem_singleton] at h2
            exact h2 ▸ hvmem
        · rw [List.length_append, List.length_singleton]
          omega
        · intro nd hnd2 hmem2
          have hnd3 : nd ∉ result :=
            fun q => hmem2 (List.mem_append_left _ q)
          have hnd4 : nd ≠ ringLookupD hr.ring (hr.sortedHashes.getD idx 0) :=
            fun q => hmem2 (List.mem_append_right _
              (by rw [q]; exact List.mem_singleton_self _))
          obtain ⟨j, hj, hjeq⟩ := hH nd hnd2 hnd3
          cases j with
          | zero =>
            exfalso
            rw [Nat.add_zero, Nat.mod_eq_of_lt hidx] at hjeq
            exact hnd4 hjeq.symm
          | succ j2 =>
            refine ⟨j2, by omega, ?_⟩
            rw [Nat.mod_add_mod, show idx + 1 + j2 = idx + (j2 + 1) by omega]
            exact hjeq
    · rw [if_neg hcond]
      exact ⟨hrnd, hrsub, by omega⟩

/-- C5 (amended): when every member node owns at least one position on
the ring (no virtual-node hash was lost to a collision), the preference
list exists and consists of exactly min n |nodes| pairwise-distinct
member nodes; the fuel bound only needs to cover one sweep of the
position array. -/
theorem c5_preference_list (hr : HashRing) (key : List Nat) (n fuel : Nat)
    (hne : hr.sortedHashes ≠ [])
    (hfuel : hr.sortedHashes.length ≤ fuel)
    (hnodesnd : hr.nodes.Nodup)
    (hvalues : ∀ h ∈ hr.sortedHashes, ringLookupD hr.ring h ∈ hr.nodes)
    (hcover : ∀ nd ∈ hr.nodes, ∃ h ∈ hr.sortedHashes, ringLookupD hr.ring h = nd) :
    ∃ P, hr.GetPreferenceList key n fuel = some P ∧ P.Nodup ∧
      (∀ x ∈ P, x ∈ hr.nodes) ∧ P.length = min n hr.nodes.length := by
  have hlen0 : ¬hr.sortedHashes.length = 0 :=
    fun q => hne (List.length_eq_zero.mp q)
  unfold HashRing.GetPreferenceList
  rw [if_neg hlen0]
  refine ⟨_, rfl, ?_⟩
  have hn2le : (if hr.nodes.length < n then hr.nodes.length else n) ≤
      hr.nodes.length := by split <;> omega
  have hmin : (if hr.nodes.length < n then hr.nodes.length else n) =
      min n hr.nodes.length := by split <;> omega
  have hidx0 : ringSearchIdx hr.sortedHashes (hashKeyMD5 key) <
      hr.sortedHashes.length := ringSearchIdx_lt _ _ hne
  have hH : ∀ nd ∈ hr.nodes, nd ∉ ([] : List (List Nat)) →
      ∃ j, j < fuel ∧ ringLookupD hr.ring
        (hr.sortedHashes.getD ((ringSearchIdx hr.sortedHashes (hashKeyMD5 key) + j) %
          hr.sortedHashes.length) 0) = nd := by
    intro nd hnd _
    obtain ⟨hsh, hmem, hlk⟩ := hcover nd hnd
    obtain ⟨i, hi, hieq⟩ := List.mem_iff_getElem.mp hmem
    refine ⟨(i + hr.sortedHashes.length -
      ringSearchIdx hr.sortedHashes (hashKeyMD5 key)) % hr.sortedHashes.length,
      ?_, ?_⟩
    · exact Nat.lt_of_lt_of_le (Nat.mod_lt _ (by omega)) hfuel
    · rw [Nat.add_mod_mod,
        show ringSearchIdx hr.sortedHashes (hashKeyMD5 key) +
          (i + hr.sortedHashes.length -
            ringSearchIdx hr.sortedHashes (hashKeyMD5 key)) =
          i + hr.sortedHashes.length by omega,
        Nat.add_mod_right, Nat.mod_eq_of_lt hi,
        List.getD_eq_getElem _ _ hi, hieq]
      exact hlk
  have hmain := prefLoop_spec hr _ hn2le hnodesnd hvalues fuel
    (ringSearchIdx hr.sortedHashes (hashKeyMD5 key)) [] hidx0 List.nodup_nil
    (fun x hx => absurd hx (List.not_mem_nil x)) (Nat.zero_le _) hH
  refine ⟨hmain.1, hmain.2.1, ?_⟩
  rw [hmain.2.2]
  exact hmin

/-- The collision ring: one virtual node per physical node, holding
"n11503" and then "n105607", whose single positions collide; the ring
map retains only the later node at the shared position. -/
def hrXY : HashRing := ((NewHashRing 1).AddNode nodeX).AddNode nodeY

theorem hrXY_eq : hrXY =
    ⟨1, [(2409332380, nodeY)], [2409332380, 2409332380], [nodeX, nodeY]⟩ := by
  decide

/-- Once the result holds the only reachable node, the collection loop
never adds another one, at either position of the two-entry array. -/
theorem prefLoop_collision : ∀ fuel idx, idx < 2 →
    prefLoop ⟨1, [(2409332380, nodeY)], [2409332380, 2409332380], [nodeX, nodeY]⟩
      2 fuel idx [nodeY] = [nodeY] := by
  intro fuel
  induction fuel with
  | zero => intro idx _; rfl
  | succ n ih =>
    intro idx hidx
    interval_cases idx
    · show prefLoop _ 2 n 1 [nodeY] = [nodeY]
      exact ih 1 (by omega)
    · show prefLoop _ 2 n 0 [nodeY] = [nodeY]
      exact ih 0 (by omega)

/-- C5 counterexample: on the collision ring there are two member nodes,
yet a preference list of requested length 2 returns a single node at
every iteration budget: only "n105607" is reachable from the position
array, so the Go collection loop (result below n, seen below the node
count) never exits. -/
theorem c5_counterexample_collision_starvation :
    hrXY.nodes.length = 2 ∧
    ∀ fuel, hrXY.GetPreferenceList [107] 2 (fuel + 1) = some [nodeY] := by
  refine ⟨by decide, ?_⟩
  intro fuel
  rw [hrXY_eq]
  have h1 : HashRing.GetPreferenceList
      ⟨1, [(2409332380, nodeY)], [2409332380, 2409332380], [nodeX, nodeY]⟩
      [107] 2 (fuel + 1) =
      some (prefLoop
        ⟨1, [(2409332380, nodeY)], [2409332380, 2409332380], [nodeX, nodeY]⟩
        2 fuel 1 [nodeY]) := rfl
  rw [h1, prefLoop_collision fuel 1 (by omega)]

/-- The healthy two-node ring with one virtual node per node. -/
def hrAB : HashRing := ((NewHashRing 1).AddNode [97]).AddNode [98]

theorem c5_witness :
    ∃ P, hrAB.GetPreferenceList [107] 2 2 = some P ∧ P.Nodup ∧
      (∀ x ∈ P, x ∈ hrAB.nodes) ∧ P.length = min 2 hrAB.nodes.length :=
  c5_preference_list hrAB [107] 2 2 (by decide) (by decide) (by decide)
    (by decide) (by decide)
